import Mathlib

/-!
# otel-test: the span load generator of `main.go`

A shallow embedding of `main.go` and a verification of its span-generation
loop and shutdown ordering.

* `TracerProvider` (lines 88-118) builds the exporter option list and the
  provider; `otlptracehttp.New` is an external call whose outcome is a field
  of `Env`.
* `main` (lines 20-58) is one coordinating flow plus one goroutine per loop
  iteration.  It is embedded as a small-step machine: a `Choice` picks the
  thread that performs its next statement (or lets the clock advance), and a
  run is the fold of `step` over a schedule.  Every theorem quantified over a
  schedule therefore holds for every interleaving of the goroutines.
* The tracing SDK is external.  `tracer.Start(parent, name)` is embedded by its
  contract: it allocates a fresh span, returns the context derived from
  `parent` that carries the span, and the span is reported when it is started
  and when it is ended.
* Time is a natural-number clock that only `Choice.tick` advances.  A call of
  `time.Sleep(d)` returns no earlier than `d` after it was made (at once when
  `d ≤ 0`); every other statement takes no time of its own, the scheduler being
  free to let the clock advance between any two statements.
* The call of `ForceFlush` (line 54) and the test of its result (lines 55-57)
  are two statements of `main`; the goroutines may be scheduled between them
  as anywhere else, and that they do nothing there is a theorem, not a
  convention of the machine.
* The flags are Go `int`s and may be negative; the loop counters only count up
  to them, so they are natural numbers and cannot overflow.

The definitions come first: the program, then the vocabulary of the theorems.
The theorems follow: the invariants of the machine, the normal form of the
events of one loop iteration, and the properties of the run.
-/

namespace OtelTest

/-! ## The program and what is said about it -/

/-- An error value (Go `error`), kept as its message. -/
abbrev Err := String

/-- The struct `TracerConfig` of lines 83-86. -/
structure TracerConfig where
  Endpoint : String
  TLS : Bool
deriving DecidableEq, Repr

/-- The values of `otlptracehttp.Option` that `TracerProvider` builds. -/
inductive ExporterOption where
  | withEndpoint (endpoint : String)
  | withInsecure
deriving DecidableEq, Repr

/-- Lines 91-96: the option slice handed to `otlptracehttp.New`. -/
def exporterOptions (config : TracerConfig) : List ExporterOption :=
  let options := [ExporterOption.withEndpoint config.Endpoint]
  if !config.TLS then options ++ [ExporterOption.withInsecure] else options

/-- The three command-line flags of lines 21-23 (Go `int`, `int` and
`time.Duration`, all signed). -/
structure Flags where
  spanCount : Int
  parallelCount : Int
  spanDuration : Int
deriving DecidableEq, Repr

/-- Outcomes of the external calls of one execution. -/
structure Env where
  /-- the error of `v.ReadInConfig()` (line 72), if any -/
  readInConfig : Option Err
  /-- the outcome of `v.Unmarshal(tracerConfig)` (line 76) -/
  unmarshal : Except Err TracerConfig
  /-- the error of `otlptracehttp.New(ctx, options...)` (line 98), if any -/
  newExporter : List ExporterOption → Option Err
  /-- the error of `traceProvider.ForceFlush` (line 54), if any -/
  forceFlush : Option Err

/-- A `context.Context` as far as tracing sees it: the background context, or a
context derived from `parent` that carries `span` as its current span. -/
inductive Ctx where
  | background
  | withSpan (parent : Ctx) (span : Nat)
deriving DecidableEq, Repr

/-- A span handle: what `tracer.Start` records about the span it creates. -/
structure Span where
  name : String
  id : Nat
  parent : Ctx
  startTime : Nat
deriving DecidableEq, Repr

/-- The context `tracer.Start` returns together with the span. -/
def Span.ctx (s : Span) : Ctx := Ctx.withSpan s.parent s.id

/-- What the run does that is visible outside the goroutines.  `trace` is the
loop index `i` of the iteration of line 34 on whose behalf the call is made; it
is an annotation and never read by the program. -/
inductive Event where
  | spanStart (trace : Nat) (span : Span)
  | spanEnd (trace : Nat) (span : Span) (time : Nat)
  | logInfo (trace : Nat) (msg : String) (time : Nat)
  | sleep (trace : Nat) (d : Int) (time : Nat)
  | forceFlush (time : Nat)
deriving DecidableEq, Repr

/-- Line 43: `fmt.Sprintf("Test_%d_%d", i, j)`. -/
def childName (i j : Nat) : String :=
  "Test_" ++ toString i ++ "_" ++ toString j

/-- Line 41: `fmt.Sprintf("Span %d %d", i, j)`. -/
def logMsg (i j : Nat) : String :=
  "Span " ++ toString i ++ " " ++ toString j

/-- Program counter of the goroutine of lines 38-50. -/
inductive WorkerPc where
  /-- the closure exists, the `go` statement has not run yet -/
  | notStarted
  /-- at the loop test of line 40 -/
  | loopHead
  /-- after `slog.Info` (line 41) -/
  | afterLog
  /-- after `tracer.Start` (line 43) -/
  | afterStart (ctx : Ctx) (span : Span)
  /-- inside `time.Sleep` (line 44), to return once the clock reaches `wake` -/
  | sleeping (ctx : Ctx) (span : Span) (wake : Nat)
  /-- after `time.Sleep` (line 44) -/
  | afterSleep (ctx : Ctx) (span : Span)
  /-- after `span.End()` (line 45) -/
  | afterEnd (ctx : Ctx) (span : Span)
  /-- after `rootSpan.End()` (line 49) -/
  | afterRootEnd
  /-- after the deferred `wg.Done()` (line 39) -/
  | done
deriving DecidableEq, Repr

/-- The variables of one loop iteration of line 34 that the closure captures
(`i`, `rootCtx`, `rootSpan`), the goroutine's loop counter `j` and its program
counter. -/
structure Worker where
  i : Nat
  rootCtx : Ctx
  rootSpan : Span
  j : Nat
  pc : WorkerPc
deriving DecidableEq, Repr

/-- Program counter of the coordinating flow of `main`. -/
inductive MainPc where
  /-- at the loop test of line 34 -/
  | forTest
  /-- before `wg.Add(1)` (line 37) -/
  | wgAdd
  /-- before the `go` statement (line 38) -/
  | goStmt
  /-- at `wg.Wait()` (line 53) -/
  | wgWait
  /-- before `traceProvider.ForceFlush` (line 54) -/
  | forceFlush
  /-- after `traceProvider.ForceFlush` returned `err`, before the test of line 55 -/
  | flushed (err : Option Err)
  /-- the function `main` returned -/
  | exited
  /-- the function `main` panicked with `err` -/
  | panicked (err : Err)
deriving DecidableEq, Repr

/-- The state of one execution of `main`. -/
structure State where
  main : MainPc
  /-- the loop variable of line 34 -/
  i : Nat
  /-- one entry per loop iteration begun, in order -/
  workers : List Worker
  /-- the counter of the `sync.WaitGroup` -/
  wg : Int
  /-- the next span identifier the tracer hands out -/
  nextId : Nat
  /-- the clock -/
  now : Nat
  /-- everything reported so far, oldest first -/
  events : List Event
  /-- the options the exporter was built with -/
  options : List ExporterOption
deriving DecidableEq, Repr

/-- What the scheduler lets happen next. -/
inductive Choice where
  | main
  | worker (k : Nat)
  | tick (d : Nat)
deriving DecidableEq, Repr

/-- Lines 69-81: the configuration, or the value `loadTracerConfig` panics
with. -/
def loadTracerConfig (env : Env) : Except Err TracerConfig :=
  match env.readInConfig with
  | some err => .error ("Fatal error config file: " ++ err ++ " \n")
  | none =>
    match env.unmarshal with
    | .error err => .error ("Fatal error config file: " ++ err ++ " \n")
    | .ok tracerConfig => .ok tracerConfig

/-- Lines 88-118: the options the provider's exporter was built with, or the
error of `otlptracehttp.New`. -/
def TracerProvider (env : Env) (config : TracerConfig) :
    Except Err (List ExporterOption) :=
  let options := exporterOptions config
  match env.newExporter options with
  | some err => .error err
  | none => .ok options

/-- The state in which no statement of `main` after line 31 has run. -/
def State.fresh (pc : MainPc) (options : List ExporterOption) : State :=
  { main := pc, i := 0, workers := [], wg := 0, nextId := 0, now := 0,
    events := [], options := options }

/-- Lines 26-33: `main` up to the loop, panicking where the source does. -/
def boot (env : Env) : State :=
  match loadTracerConfig env with
  | .error err => State.fresh (.panicked err) []
  | .ok tracerConfig =>
    match TracerProvider env tracerConfig with
    | .error err => State.fresh (.panicked err) []
    | .ok options => State.fresh .forTest options

/-- Whether `main` has returned or panicked (the process is gone). -/
def MainPc.terminal : MainPc → Bool
  | .exited => true
  | .panicked _ => true
  | _ => false

/-- Whether `main` is past `wg.Wait()` (line 53). -/
def MainPc.joined : MainPc → Bool
  | .forceFlush => true
  | .flushed _ => true
  | .exited => true
  | .panicked _ => true
  | _ => false

/-- Whether `main` is past the call of `ForceFlush` (line 54). -/
def MainPc.flushDone : MainPc → Bool
  | .flushed _ => true
  | .exited => true
  | .panicked _ => true
  | _ => false

/-- The next statement of the coordinating flow (lines 34-37 and 53-57). -/
def mainStep (flags : Flags) (env : Env) (st : State) : State :=
  match st.main with
  | .forTest =>
    if (st.i : Int) < flags.parallelCount then
      let rootSpan : Span :=
        { name := "Root", id := st.nextId, parent := .background, startTime := st.now }
      { st with
        main := .wgAdd
        nextId := st.nextId + 1
        workers := st.workers ++
          [{ i := st.i, rootCtx := rootSpan.ctx, rootSpan := rootSpan, j := 0,
             pc := .notStarted }]
        events := st.events ++ [.spanStart st.i rootSpan] }
    else { st with main := .wgWait }
  | .wgAdd => { st with main := .goStmt, wg := st.wg + 1 }
  | .goStmt =>
    match st.workers[st.i]? with
    | some w =>
      { st with
        main := .forTest
        i := st.i + 1
        workers := st.workers.set st.i { w with pc := .loopHead } }
    | none => st
  | .wgWait => if st.wg = 0 then { st with main := .forceFlush } else st
  | .forceFlush =>
    { st with main := .flushed env.forceFlush, events := st.events ++ [.forceFlush st.now] }
  | .flushed (some err) => { st with main := .panicked err }
  | .flushed none => { st with main := .exited }
  | .exited => st
  | .panicked _ => st

/-- The next statement of the goroutine of iteration `k` (lines 38-50). -/
def workerStep (flags : Flags) (k : Nat) (st : State) : State :=
  match st.workers[k]? with
  | none => st
  | some w =>
    match w.pc with
    | .notStarted => st
    | .loopHead =>
      if (w.j : Int) < flags.spanCount then
        { st with
          workers := st.workers.set k { w with pc := .afterLog }
          events := st.events ++ [.logInfo w.i (logMsg w.i w.j) st.now] }
      else
        { st with
          workers := st.workers.set k { w with pc := .afterRootEnd }
          events := st.events ++ [.spanEnd w.i w.rootSpan st.now] }
    | .afterLog =>
      let span : Span :=
        { name := childName w.i w.j, id := st.nextId, parent := w.rootCtx,
          startTime := st.now }
      { st with
        nextId := st.nextId + 1
        workers := st.workers.set k { w with pc := .afterStart span.ctx span }
        events := st.events ++ [.spanStart w.i span] }
    | .afterStart ctx span =>
      { st with
        workers := st.workers.set k
          { w with pc := .sleeping ctx span (st.now + flags.spanDuration.toNat) }
        events := st.events ++ [.sleep w.i flags.spanDuration st.now] }
    | .sleeping ctx span wake =>
      if wake ≤ st.now then
        { st with workers := st.workers.set k { w with pc := .afterSleep ctx span } }
      else st
    | .afterSleep ctx span =>
      { st with
        workers := st.workers.set k { w with pc := .afterEnd ctx span }
        events := st.events ++ [.spanEnd w.i span st.now] }
    | .afterEnd ctx _ =>
      { st with
        workers := st.workers.set k { w with rootCtx := ctx, j := w.j + 1, pc := .loopHead } }
    | .afterRootEnd =>
      { st with
        wg := st.wg - 1
        workers := st.workers.set k { w with pc := .done } }
    | .done => st

/-- One scheduling decision.  Once `main` has returned or panicked nothing
runs any more. -/
def step (flags : Flags) (env : Env) (st : State) (c : Choice) : State :=
  if st.main.terminal then st
  else
    match c with
    | .main => mainStep flags env st
    | .worker k => workerStep flags k st
    | .tick d => { st with now := st.now + d }

/-- The state after the schedule `sched`, started from `st`. -/
def runFrom (flags : Flags) (env : Env) (st : State) (sched : List Choice) : State :=
  sched.foldl (step flags env) st

/-- Lines 20-58: `main` under the schedule `sched`. -/
def main (flags : Flags) (env : Env) (sched : List Choice) : State :=
  runFrom flags env (boot env) sched

/-- Whether the goroutine still owes its `wg.Done()`. -/
def Worker.live (w : Worker) : Nat := if w.pc = .done then 0 else 1

/-- Lines 26-31 went through: the configuration was read and the provider
built. -/
def Booted (env : Env) : Prop := (boot env).main = .forTest

instance (env : Env) : Decidable (Booted env) := by unfold Booted; infer_instance

/-- The shape of the state that does not mention the events. -/
structure Shape (flags : Flags) (env : Env) (st : State) : Prop where
  idx : ∀ (k : Nat) (w : Worker), st.workers[k]? = some w → w.i = k
  len : st.workers.length = if st.main = .wgAdd ∨ st.main = .goStmt then st.i + 1 else st.i
  fresh : ∀ (k : Nat) (w : Worker), st.workers[k]? = some w → w.pc = .notStarted →
    k = st.i ∧ (st.main = .wgAdd ∨ st.main = .goStmt)
  pend : (st.main = .wgAdd ∨ st.main = .goStmt) →
    ∃ w, st.workers[st.i]? = some w ∧ w.pc = .notStarted
  wg : st.wg + (if st.main = .wgAdd then 1 else 0) = ((st.workers.map Worker.live).sum : Nat)
  bound : st.i ≤ flags.parallelCount.toNat
  inLoop : (st.main = .wgAdd ∨ st.main = .goStmt) → st.i < flags.parallelCount.toNat
  past : (st.main = .wgWait ∨ st.main.joined = true) → st.i = flags.parallelCount.toNat
  joined : st.main.joined = true → ∀ w ∈ st.workers, w.pc = .done
  flushed : ∀ e, st.main = .panicked e → env.forceFlush = some e
  result : ∀ r, st.main = .flushed r → r = env.forceFlush
  exitedOk : st.main = .exited → env.forceFlush = none

/-- The loop iteration an event belongs to. -/
def Event.trace? : Event → Option Nat
  | .spanStart t _ => some t
  | .spanEnd t _ _ => some t
  | .logInfo t _ _ => some t
  | .sleep t _ _ => some t
  | .forceFlush _ => none

/-- The events of loop iteration `k`, oldest first. -/
def traceOf (k : Nat) (evs : List Event) : List Event :=
  evs.filter (fun e => e.trace? = some k)

/-- What one pass through the loop body of lines 40-47 leaves behind beyond the
values the program fixes: the span identifier and the four times. -/
structure ChildRec where
  id : Nat
  tLog : Nat
  tStart : Nat
  tSleep : Nat
  tEnd : Nat
deriving DecidableEq, Repr

/-- The span of pass `j` of iteration `k`, started under `parent`. -/
def childSpan (k j : Nat) (parent : Ctx) (c : ChildRec) : Span :=
  { name := childName k j, id := c.id, parent := parent, startTime := c.tStart }

/-- The four events of pass `j` of iteration `k`. -/
def childEvents (flags : Flags) (k j : Nat) (parent : Ctx) (c : ChildRec) : List Event :=
  [.logInfo k (logMsg k j) c.tLog,
   .spanStart k (childSpan k j parent c),
   .sleep k flags.spanDuration c.tSleep,
   .spanEnd k (childSpan k j parent c) c.tEnd]

/-- The events of the passes `j, j+1, ...` recorded in `cs`, the first of them
started under `parent` and each later one under the context of its predecessor. -/
def chainEvents (flags : Flags) (k : Nat) : Nat → Ctx → List ChildRec → List Event
  | _, _, [] => []
  | j, parent, c :: cs =>
    childEvents flags k j parent c ++
      chainEvents flags k (j + 1) (childSpan k j parent c).ctx cs

/-- The context the chain `cs` ends with. -/
def chainCtx : Ctx → List ChildRec → Ctx
  | parent, [] => parent
  | parent, c :: cs => chainCtx (Ctx.withSpan parent c.id) cs

/-- What the program does not fix about the events of one loop iteration. -/
structure Hist where
  rootId : Nat
  rootTime : Nat
  /-- the passes through the loop body that are complete -/
  cs : List ChildRec
  /-- the pass in progress, if one is -/
  cur : ChildRec
  /-- when `rootSpan.End()` ran, if it did -/
  tEnd : Nat
deriving Repr

/-- The root span of line 36. -/
def Hist.root (h : Hist) : Span :=
  { name := "Root", id := h.rootId, parent := .background, startTime := h.rootTime }

/-- The events of the root start and of the complete passes. -/
def Hist.base (flags : Flags) (k : Nat) (h : Hist) : List Event :=
  .spanStart k h.root :: chainEvents flags k 0 h.root.ctx h.cs

/-- The context the complete passes end with. -/
def Hist.tail (h : Hist) : Ctx := chainCtx h.root.ctx h.cs

/-- The events of the pass in progress. -/
def Hist.curEvents (flags : Flags) (k : Nat) (h : Hist) : List Event :=
  childEvents flags k h.cs.length h.tail h.cur

/-- The span of the pass in progress. -/
def Hist.curSpan (k : Nat) (h : Hist) : Span := childSpan k h.cs.length h.tail h.cur

/-- When the first pass through the loop body started its span: the first of
the complete passes, or the pass in progress when none is complete. -/
def firstStart : List ChildRec → Nat → Nat
  | [], t => t
  | c :: _, _ => c.tStart

/-- The part of `WorkerOk` that depends on the program counter: the events of
iteration `k` so far are `tr`, and the clock `now` has advanced by the sleeps
made. -/
def phaseOk (flags : Flags) (now k : Nat) (w : Worker) (tr : List Event) (h : Hist) : Prop :=
  match w.pc with
  | .notStarted | .loopHead =>
    w.rootCtx = h.tail ∧ tr = h.base flags k ∧
    (∀ c ∈ h.cs, c.tEnd ≤ now) ∧
    (h.cs ≠ [] → firstStart h.cs h.cur.tStart + h.cs.length * flags.spanDuration.toNat ≤ now)
  | .afterLog =>
    w.rootCtx = h.tail ∧ tr = h.base flags k ++ (h.curEvents flags k).take 1 ∧
    (h.cs.length : Int) < flags.spanCount ∧
    (∀ c ∈ h.cs, c.tEnd ≤ now) ∧
    (h.cs ≠ [] → firstStart h.cs h.cur.tStart + h.cs.length * flags.spanDuration.toNat ≤ now)
  | .afterStart ctx span =>
    w.rootCtx = h.tail ∧ tr = h.base flags k ++ (h.curEvents flags k).take 2 ∧
    (h.cs.length : Int) < flags.spanCount ∧ span = h.curSpan k ∧ ctx = span.ctx ∧
    (∀ c ∈ h.cs, c.tEnd ≤ now) ∧
    firstStart h.cs h.cur.tStart + h.cs.length * flags.spanDuration.toNat ≤ now
  | .sleeping ctx span wake =>
    w.rootCtx = h.tail ∧ tr = h.base flags k ++ (h.curEvents flags k).take 3 ∧
    (h.cs.length : Int) < flags.spanCount ∧ span = h.curSpan k ∧ ctx = span.ctx ∧
    (∀ c ∈ h.cs, c.tEnd ≤ now) ∧
    wake = h.cur.tSleep + flags.spanDuration.toNat ∧
    firstStart h.cs h.cur.tStart + h.cs.length * flags.spanDuration.toNat ≤ h.cur.tSleep
  | .afterSleep ctx span =>
    w.rootCtx = h.tail ∧ tr = h.base flags k ++ (h.curEvents flags k).take 3 ∧
    (h.cs.length : Int) < flags.spanCount ∧ span = h.curSpan k ∧ ctx = span.ctx ∧
    (∀ c ∈ h.cs, c.tEnd ≤ now) ∧
    firstStart h.cs h.cur.tStart + (h.cs.length + 1) * flags.spanDuration.toNat ≤ now
  | .afterEnd ctx span =>
    w.rootCtx = h.tail ∧ tr = h.base flags k ++ h.curEvents flags k ∧
    (h.cs.length : Int) < flags.spanCount ∧ span = h.curSpan k ∧ ctx = span.ctx ∧
    (∀ c ∈ h.cs ++ [h.cur], c.tEnd ≤ now) ∧
    firstStart h.cs h.cur.tStart + (h.cs.length + 1) * flags.spanDuration.toNat ≤ now
  | .afterRootEnd | .done =>
    tr = h.base flags k ++ [.spanEnd k h.root h.tEnd] ∧
    ¬ (h.cs.length : Int) < flags.spanCount ∧
    (∀ c ∈ h.cs, c.tEnd ≤ h.tEnd) ∧
    (h.cs ≠ [] → firstStart h.cs h.cur.tStart + h.cs.length * flags.spanDuration.toNat ≤ h.tEnd)

/-- The state `w` of iteration `k` and its events `tr` so far are those of a
sequential execution of lines 36-49. -/
def WorkerOk (flags : Flags) (now k : Nat) (w : Worker) (tr : List Event) : Prop :=
  ∃ h : Hist, w.i = k ∧ w.rootSpan = h.root ∧ w.j = h.cs.length ∧
    h.cs.length ≤ flags.spanCount.toNat ∧ phaseOk flags now k w tr h

/-- Every loop iteration begun has the events of a sequential execution, and
the others have none. -/
def Traced (flags : Flags) (st : State) : Prop :=
  ∀ k : Nat,
    match st.workers[k]? with
    | some w => WorkerOk flags st.now k w (traceOf k st.events)
    | none => traceOf k st.events = []

/-- Whether the event is the call of `ForceFlush` (line 54). -/
def Event.isFlush : Event → Bool
  | .forceFlush _ => true
  | _ => false

/-- Before the call of `ForceFlush` nothing was flushed; after it the flush is
the last event and the only flush. -/
def FlushLast (st : State) : Prop :=
  if st.main.flushDone = true then
    ∃ pre t, st.events = pre ++ [.forceFlush t] ∧ ∀ e ∈ pre, e.isFlush = false
  else ∀ e ∈ st.events, e.isFlush = false

/-- A bound on the statements the goroutine has still to execute, for
`spanCount = S`. -/
def Worker.todo (S : Nat) (w : Worker) : Nat :=
  match w.pc with
  | .notStarted => 6 * (S - w.j) + 2
  | .loopHead => 6 * (S - w.j) + 2
  | .afterLog => 6 * (S - (w.j + 1)) + 7
  | .afterStart _ _ => 6 * (S - (w.j + 1)) + 6
  | .sleeping _ _ _ => 6 * (S - (w.j + 1)) + 5
  | .afterSleep _ _ => 6 * (S - (w.j + 1)) + 4
  | .afterEnd _ _ => 6 * (S - (w.j + 1)) + 3
  | .afterRootEnd => 1
  | .done => 0

/-- A bound on the statements the whole program has still to execute. -/
def State.todo (flags : Flags) (st : State) : Nat :=
  (st.workers.map (Worker.todo flags.spanCount.toNat)).sum +
    match st.main with
    | .forTest => (6 * flags.spanCount.toNat + 5) * (flags.parallelCount.toNat - st.i) + 4
    | .wgAdd => (6 * flags.spanCount.toNat + 5) * (flags.parallelCount.toNat - (st.i + 1)) + 6
    | .goStmt => (6 * flags.spanCount.toNat + 5) * (flags.parallelCount.toNat - (st.i + 1)) + 5
    | .wgWait => 3
    | .forceFlush => 2
    | .flushed _ => 1
    | .exited => 0
    | .panicked _ => 0

/-- How long the goroutine has still to sleep. -/
def Worker.nap (now : Nat) (w : Worker) : Nat :=
  match w.pc with
  | .sleeping _ _ wake => wake - now
  | _ => 0

/-- The span a start event reports. -/
def Event.started? : Event → Option Span
  | .spanStart _ s => some s
  | _ => none

/-- The span an end event reports, with the time it ended. -/
def Event.ended? : Event → Option (Span × Nat)
  | .spanEnd _ s t => some (s, t)
  | _ => none

/-- The spans started on behalf of loop iteration `k`, oldest first. -/
def startsOf (k : Nat) (evs : List Event) : List Span :=
  (traceOf k evs).filterMap Event.started?

/-- The spans ended on behalf of loop iteration `k` with their end times,
oldest first. -/
def endsOf (k : Nat) (evs : List Event) : List (Span × Nat) :=
  (traceOf k evs).filterMap Event.ended?

/-- A root span is a span without a parent. -/
def Span.isRoot (s : Span) : Bool := decide (s.parent = Ctx.background)

/-- The event starts a root span. -/
def Event.isRootStart : Event → Bool
  | .spanStart _ s => s.isRoot
  | _ => false

/-- The event starts a span that has a parent. -/
def Event.isChildStart : Event → Bool
  | .spanStart _ s => !s.isRoot
  | _ => false

/-- The event ends a root span. -/
def Event.isRootEnd : Event → Bool
  | .spanEnd _ s _ => s.isRoot
  | _ => false

/-- The event ends a span that has a parent. -/
def Event.isChildEnd : Event → Bool
  | .spanEnd _ s _ => !s.isRoot
  | _ => false

/-- The spans of the passes recorded in `cs` (see `chainEvents`). -/
def chainSpans (k : Nat) : Nat → Ctx → List ChildRec → List Span
  | _, _, [] => []
  | j, parent, c :: cs =>
    childSpan k j parent c :: chainSpans k (j + 1) (childSpan k j parent c).ctx cs

/-- The spans of the passes recorded in `cs` with their end times. -/
def chainEnds (k : Nat) : Nat → Ctx → List ChildRec → List (Span × Nat)
  | _, _, [] => []
  | j, parent, c :: cs =>
    (childSpan k j parent c, c.tEnd) :: chainEnds k (j + 1) (childSpan k j parent c).ctx cs

/-- The events of one loop iteration in normal form: the root start, the
complete passes, the first `n` events of the pass in progress, and the root end
when `fin`. -/
structure Form (flags : Flags) (k : Nat) (tr : List Event) (h : Hist) (n : Nat)
    (fin : Bool) : Prop where
  eq : tr = h.base flags k ++ (h.curEvents flags k).take n ++
    (if fin = true then [.spanEnd k h.root h.tEnd] else [])
  n_le : n ≤ 3
  len_le : h.cs.length ≤ flags.spanCount.toNat
  busy : 0 < n → h.cs.length < flags.spanCount.toNat
  fin_n : fin = true → n = 0 ∧ h.cs.length = flags.spanCount.toNat
  ends_le : fin = true → ∀ c ∈ h.cs, c.tEnd ≤ h.tEnd
  timing : fin = true → h.cs ≠ [] →
    firstStart h.cs h.cur.tStart + h.cs.length * flags.spanDuration.toNat ≤ h.tEnd

/-- The passes whose span has been started: the complete ones, and the one in
progress from its second event on. -/
def Hist.begun (h : Hist) (n : Nat) : List ChildRec :=
  if 2 ≤ n then h.cs ++ [h.cur] else h.cs

/-- A run whose external calls all succeed. -/
def sampleEnv : Env :=
  { readInConfig := none
    unmarshal := .ok { Endpoint := "localhost:4318", TLS := false }
    newExporter := fun _ => none
    forceFlush := none }

/-- A schedule that completes the run with `parallelCount = 1` and
`spanCount = 2`: the loop of `main`, the goroutine to its end, the join, the
flush and the return. -/
def sampleSchedule : List Choice :=
  [.main, .main, .main] ++ List.replicate 14 (.worker 0) ++ [.main, .main, .main, .main]

/-- The schedule `sampleSchedule` up to the moment `main` is about to call
`ForceFlush`. -/
def joinedSchedule : List Choice :=
  [.main, .main, .main] ++ List.replicate 14 (.worker 0) ++ [.main, .main]

/-- A schedule that completes the run with `parallelCount = 2` and
`spanCount = 3`, the two goroutines taking turns. -/
def scenarioSchedule : List Choice :=
  List.replicate 6 .main ++
    (List.replicate 20 [Choice.worker 0, Choice.worker 1]).flatten ++
    List.replicate 4 .main

/-- The event starts a span named `a`. -/
def Event.startsNamed (a : String) : Event → Bool
  | .spanStart _ s => decide (s.name = a)
  | _ => false

/-- The event is a call of `time.Sleep` with duration `d`. -/
def Event.isSleep (d : Int) : Event → Bool
  | .sleep _ d' _ => decide (d' = d)
  | _ => false

/-- A schedule that completes the run with `parallelCount = 1` and
`spanCount = 2` when every sleep lasts `5`: the clock is advanced by `5` while the
goroutine sleeps. -/
def timedSchedule : List Choice :=
  [.main, .main, .main] ++
    [.worker 0, .worker 0, .worker 0, .tick 5, .worker 0, .worker 0, .worker 0] ++
    [.worker 0, .worker 0, .worker 0, .tick 5, .worker 0, .worker 0, .worker 0] ++
    [.worker 0, .worker 0, .main, .main, .main, .main]

/-- A run in which `otlptracehttp.New` fails. -/
def brokenEnv : Env :=
  { readInConfig := none
    unmarshal := .ok { Endpoint := "localhost:4318", TLS := true }
    newExporter := fun _ => some "no exporter"
    forceFlush := none }

/-- A run in which everything succeeds but the flush. -/
def lossyEnv : Env :=
  { readInConfig := none
    unmarshal := .ok { Endpoint := "localhost:4318", TLS := false }
    newExporter := fun _ => none
    forceFlush := some "flush failed" }

/-- The same external outcomes, except that the flush succeeds. -/
def Env.flushing (env : Env) : Env := { env with forceFlush := none }

/-- The state with another program counter of `main`. -/
def State.withMain (st : State) (pc : MainPc) : State := { st with main := pc }

/-- Two states that differ at most in how far `main` is past the flush. -/
def PastFlush (a b : State) : Prop :=
  a.withMain .exited = b.withMain .exited ∧
    ((∃ r r', a.main = .flushed r ∧ b.main = .flushed r') ∨
      (a.main.terminal = true ∧ b.main.terminal = true))

/-- The event starts or ends a span. -/
def Event.isSpan : Event → Bool
  | .spanStart _ _ => true
  | .spanEnd _ _ _ => true
  | _ => false

/-- The identifiers of the spans started so far are `0, 1, ...` in the order of
the starts: the tracer never hands out an identifier twice. -/
def FreshIds (st : State) : Prop :=
  (st.events.filterMap Event.started?).map Span.id = List.range st.nextId

/-! ## Lists -/

theorem getElem?_snoc_eq_some {α : Type} (l : List α) (a w : α) (k : Nat) :
    (l ++ [a])[k]? = some w ↔ l[k]? = some w ∨ (k = l.length ∧ a = w) := by
  rw [List.getElem?_append]
  split
  · rename_i h
    constructor
    · intro h'; exact Or.inl h'
    · rintro (h' | ⟨h', _⟩)
      · exact h'
      · omega
  · rename_i h
    have hn : l[k]? = none := by simp; omega
    constructor
    · intro h'
      right
      have : k - l.length = 0 := by
        by_contra hne
        have : [a][k - l.length]? = none := by simp; omega
        rw [this] at h'; simp at h'
      refine ⟨by omega, ?_⟩
      rw [this] at h'; simpa using h'
    · rintro (h' | ⟨h', rfl⟩)
      · rw [hn] at h'; simp at h'
      · subst h'; simp

theorem getElem?_set_eq_some {α : Type} (l : List α) (a w : α) (t k : Nat) :
    (l.set t a)[k]? = some w ↔ (k = t ∧ t < l.length ∧ a = w) ∨ (k ≠ t ∧ l[k]? = some w) := by
  rw [List.getElem?_set]
  split
  · rename_i h
    subst h
    split
    · simp_all
    · simp_all
  · rename_i h
    constructor
    · intro h'; exact Or.inr ⟨fun e => h e.symm, h'⟩
    · rintro (⟨h', _⟩ | ⟨_, h'⟩)
      · exact absurd h'.symm h
      · exact h'

/-! ## Runs and the shape of the state -/

theorem runFrom_append (flags : Flags) (env : Env) (st : State) (s₁ s₂ : List Choice) :
    runFrom flags env st (s₁ ++ s₂) = runFrom flags env (runFrom flags env st s₁) s₂ := by
  simp [runFrom, List.foldl_append]

theorem runFrom_induction (flags : Flags) (env : Env) (I : State → Prop)
    (hstep : ∀ st c, I st → I (step flags env st c)) :
    ∀ (sched : List Choice) (st : State), I st → I (runFrom flags env st sched) := by
  intro sched
  induction sched with
  | nil => intro st h; simpa [runFrom] using h
  | cons c cs ih =>
    intro st h
    have := ih (step flags env st c) (hstep st c h)
    simpa [runFrom] using this

/-- Summing over a list with one entry replaced. -/
theorem sum_map_set {α : Type} (f : α → Nat) :
    ∀ (l : List α) (k : Nat) (x a : α), l[k]? = some x →
      ((l.set k a).map f).sum + f x = (l.map f).sum + f a := by
  intro l
  induction l with
  | nil => intro k x a h; simp at h
  | cons y ys ih =>
    intro k x a h
    cases k with
    | zero =>
      simp at h
      subst h
      simp
      omega
    | succ k =>
      simp at h
      have := ih k x a h
      simp only [List.set_cons_succ, List.map_cons, List.sum_cons]
      omega

theorem boot_of_booted (env : Env) (h : Booted env) :
    ∃ options, boot env = State.fresh .forTest options := by
  unfold Booted at h
  unfold boot at h ⊢
  split at h
  · simp [State.fresh] at h
  · split at h
    · simp [State.fresh] at h
    · exact ⟨_, rfl⟩

theorem shape_boot (flags : Flags) (env : Env) (h : Booted env) :
    Shape flags env (boot env) := by
  obtain ⟨options, ho⟩ := boot_of_booted env h
  rw [ho]
  constructor <;> simp [State.fresh, MainPc.joined]

theorem shape_tick (flags : Flags) (env : Env) (st : State) (d : Nat)
    (h : Shape flags env st) : Shape flags env { st with now := st.now + d } :=
  ⟨h.idx, h.len, h.fresh, h.pend, h.wg, h.bound, h.inLoop, h.past, h.joined, h.flushed,
    h.result, h.exitedOk⟩

theorem shape_mainStep (flags : Flags) (env : Env) (st : State)
    (h : Shape flags env st) : Shape flags env (mainStep flags env st) := by
  obtain ⟨hidx, hlen, hfresh, hpend, hwg, hbound, hin, hpast, hjoin, hfl, hres, hex⟩ := h
  obtain ⟨pc, i, workers, wg, nextId, now, events, options⟩ := st
  simp only at *
  cases pc <;> simp only [mainStep]
  · -- forTest
    simp only [if_true, reduceCtorEq, or_self, if_false, true_or, or_true, MainPc.joined] at *
    split
    · rename_i hlt
      constructor <;>
        simp only [if_true, reduceCtorEq, or_self, if_false, true_or, or_true, MainPc.joined,
          getElem?_snoc_eq_some]
      · rintro k w (hk | ⟨hk, rfl⟩)
        · exact hidx k w hk
        · simp [hk, hlen]
      · simp [hlen]
      · rintro k w (hk | ⟨hk, rfl⟩) hpc
        · exact absurd (hfresh k w hk hpc).2 (by simp)
        · simp [hk, hlen]
      · intro _
        exact ⟨_, Or.inr ⟨hlen.symm, rfl⟩, rfl⟩
      · simp only [List.map_append, List.sum_append, List.map_cons, List.map_nil,
          List.sum_cons, List.sum_nil, Worker.live, reduceCtorEq, if_false]
        omega
      · omega
      · intro _; omega
      · simp
      · simp
      · simp
      · simp
      · simp
    · rename_i hlt
      constructor <;>
        simp only [if_true, reduceCtorEq, or_self, if_false, true_or, or_true, MainPc.joined]
      all_goals first | assumption | omega
  · -- wgAdd
    simp only [if_true, reduceCtorEq, or_self, if_false, true_or, or_true, MainPc.joined] at *
    constructor <;>
      simp only [if_true, reduceCtorEq, or_self, if_false, true_or, or_true, MainPc.joined]
    all_goals first | assumption | omega
  · -- goStmt
    simp only [if_true, reduceCtorEq, or_self, if_false, true_or, or_true, MainPc.joined] at *
    obtain ⟨w, hw, hwpc⟩ := hpend trivial
    simp only [hw]
    constructor <;>
      simp only [if_true, reduceCtorEq, or_self, if_false, true_or, or_true, MainPc.joined,
        getElem?_set_eq_some, List.length_set]
    all_goals first | assumption | omega | (simp; done) | skip
    · rintro k w' (⟨hk, -, rfl⟩ | ⟨-, hk⟩)
      · simpa [hk] using hidx i w hw
      · exact hidx k w' hk
    · rintro k w' (⟨hk, -, rfl⟩ | ⟨hne, hk⟩)
      · simp
      · intro hpc
        exact absurd (hfresh k w' hk hpc).1 hne
    · have := sum_map_set Worker.live workers i w { w with pc := .loopHead } hw
      have h1 : Worker.live w = 1 := by simp [Worker.live, hwpc]
      have h2 : Worker.live { w with pc := .loopHead } = 1 := by simp [Worker.live]
      omega
    · have := hin trivial
      omega
  · -- wgWait
    simp only [if_true, reduceCtorEq, or_self, if_false, true_or, or_true, MainPc.joined] at *
    split
    · rename_i hz
      constructor <;>
        simp only [if_true, reduceCtorEq, or_self, if_false, true_or, or_true, MainPc.joined]
      all_goals first | assumption | omega | (simp; done) | skip
      intro _ w hw
      have hs : (workers.map Worker.live).sum = 0 := by omega
      have := (List.sum_eq_zero_iff.mp hs) (Worker.live w) (List.mem_map_of_mem _ hw)
      simp only [Worker.live] at this
      by_contra hne
      simp [hne] at this
    · constructor <;>
        simp only [if_true, reduceCtorEq, or_self, if_false, true_or, or_true, MainPc.joined]
      all_goals assumption
  · -- forceFlush
    simp only [if_true, reduceCtorEq, or_self, if_false, true_or, or_true, MainPc.joined] at *
    constructor <;>
      simp only [if_true, reduceCtorEq, or_self, if_false, true_or, or_true, MainPc.joined,
        MainPc.flushed.injEq]
    all_goals first | assumption | simp
  · -- flushed
    rename_i r
    have hr := hres r rfl
    simp only [if_true, reduceCtorEq, or_self, if_false, true_or, or_true, MainPc.joined] at *
    cases r with
    | none =>
      simp only
      constructor <;>
        simp only [if_true, reduceCtorEq, or_self, if_false, true_or, or_true, MainPc.joined]
      all_goals first | assumption | (simp; done) | skip
      intro _
      exact hr.symm
    | some err =>
      simp only
      constructor <;>
        simp only [if_true, reduceCtorEq, or_self, if_false, true_or, or_true, MainPc.joined,
          MainPc.panicked.injEq]
      all_goals first | assumption | (simp; done) | skip
      intro e he
      rw [← hr, he]
  · exact ⟨hidx, hlen, hfresh, hpend, hwg, hbound, hin, hpast, hjoin, hfl, hres, hex⟩
  · exact ⟨hidx, hlen, hfresh, hpend, hwg, hbound, hin, hpast, hjoin, hfl, hres, hex⟩

theorem shape_update (flags : Flags) (env : Env) (st : State) (h : Shape flags env st)
    (k : Nat) (w w' : Worker) (hw : st.workers[k]? = some w)
    (hn : w.pc ≠ .notStarted) (hd : w.pc ≠ .done) (hi : w'.i = w.i)
    (hn' : w'.pc ≠ .notStarted) (wg' : Int) (hwg : wg' + 1 = st.wg + w'.live)
    (nextId' : Nat) (events' : List Event) :
    Shape flags env { st with workers := st.workers.set k w', wg := wg', nextId := nextId',
                              events := events' } := by
  obtain ⟨hidx, hlen, hfresh, hpend, hwg0, hbound, hin, hpast, hjoin, hfl, hres, hex⟩ := h
  have hmem : w ∈ st.workers := List.mem_iff_getElem?.mpr ⟨k, hw⟩
  have hlive : w.live = 1 := by simp [Worker.live, hd]
  constructor <;> simp only [getElem?_set_eq_some, List.length_set]
  all_goals first | assumption | skip
  · rintro j v (⟨hj, -, rfl⟩ | ⟨-, hj⟩)
    · rw [hi, hj]; exact hidx k w hw
    · exact hidx j v hj
  · rintro j v (⟨hj, -, rfl⟩ | ⟨-, hj⟩) hv
    · exact absurd hv hn'
    · exact hfresh j v hj hv
  · intro hm
    obtain ⟨v, hv, hvpc⟩ := hpend hm
    refine ⟨v, Or.inr ⟨?_, hv⟩, hvpc⟩
    intro hik
    rw [hik, hw] at hv
    injection hv with hv
    exact hn (hv ▸ hvpc)
  · have := sum_map_set Worker.live st.workers k w w' hw
    omega
  · intro hm
    exact absurd (hjoin hm w hmem) hd

theorem shape_workerStep (flags : Flags) (env : Env) (st : State) (k : Nat)
    (h : Shape flags env st) : Shape flags env (workerStep flags k st) := by
  unfold workerStep
  split
  · exact h
  · rename_i w hw
    split
    · exact h
    · rename_i hpc
      split
      · exact shape_update flags env st h k w { w with pc := .afterLog } hw (by simp [hpc])
          (by simp [hpc]) rfl (by simp) st.wg (by simp [Worker.live]) _ _
      · exact shape_update flags env st h k w { w with pc := .afterRootEnd } hw (by simp [hpc])
          (by simp [hpc]) rfl (by simp) st.wg (by simp [Worker.live]) _ _
    · rename_i hpc
      exact shape_update flags env st h k w _ hw (by simp [hpc])
          (by simp [hpc]) (by rfl) (by simp) st.wg (by simp [Worker.live]) _ _
    · rename_i ctx span hpc
      exact shape_update flags env st h k w _ hw (by simp [hpc])
          (by simp [hpc]) (by rfl) (by simp) st.wg (by simp [Worker.live]) _ _
    · rename_i ctx span wake hpc
      split
      · exact shape_update flags env st h k w { w with pc := .afterSleep ctx span } hw
          (by simp [hpc]) (by simp [hpc]) rfl (by simp) st.wg (by simp [Worker.live]) _ _
      · exact h
    · rename_i ctx span hpc
      exact shape_update flags env st h k w _ hw (by simp [hpc])
          (by simp [hpc]) (by rfl) (by simp) st.wg (by simp [Worker.live]) _ _
    · rename_i ctx span hpc
      exact shape_update flags env st h k w { w with rootCtx := ctx, j := w.j + 1, pc := .loopHead }
          hw (by simp [hpc]) (by simp [hpc]) rfl (by simp) st.wg (by simp [Worker.live]) _ _
    · rename_i hpc
      exact shape_update flags env st h k w { w with pc := .done } hw (by simp [hpc])
          (by simp [hpc]) rfl (by simp) (st.wg - 1) (by simp [Worker.live]) _ _
    · exact h

theorem shape_step (flags : Flags) (env : Env) (st : State) (c : Choice)
    (h : Shape flags env st) : Shape flags env (step flags env st c) := by
  unfold step
  split
  · exact h
  · cases c with
    | main => exact shape_mainStep flags env st h
    | worker k => exact shape_workerStep flags env st k h
    | tick d => exact shape_tick flags env st d h

theorem shape_main (flags : Flags) (env : Env) (hb : Booted env) (sched : List Choice) :
    Shape flags env (main flags env sched) :=
  runFrom_induction flags env (Shape flags env) (fun st c => shape_step flags env st c) sched _
    (shape_boot flags env hb)

/-! ## The history of one loop iteration -/

theorem chainCtx_snoc (parent : Ctx) (cs : List ChildRec) (c : ChildRec) :
    chainCtx parent (cs ++ [c]) = Ctx.withSpan (chainCtx parent cs) c.id := by
  induction cs generalizing parent with
  | nil => rfl
  | cons d ds ih => simpa [chainCtx] using ih _

theorem chainEvents_snoc (flags : Flags) (k j : Nat) (parent : Ctx) (cs : List ChildRec)
    (c : ChildRec) :
    chainEvents flags k j parent (cs ++ [c]) =
      chainEvents flags k j parent cs ++
        childEvents flags k (j + cs.length) (chainCtx parent cs) c := by
  induction cs generalizing j parent with
  | nil => simp [chainEvents, chainCtx]
  | cons d ds ih =>
    have := ih (j + 1) (childSpan k j parent d).ctx
    have e : j + 1 + ds.length = j + (ds.length + 1) := by omega
    rw [e] at this
    show childEvents flags k j parent d ++
        chainEvents flags k (j + 1) (childSpan k j parent d).ctx (ds ++ [c]) =
      (childEvents flags k j parent d ++
        chainEvents flags k (j + 1) (childSpan k j parent d).ctx ds) ++
        childEvents flags k (j + (ds.length + 1)) (chainCtx (childSpan k j parent d).ctx ds) c
    rw [this, List.append_assoc]

theorem traceOf_append (k : Nat) (xs ys : List Event) :
    traceOf k (xs ++ ys) = traceOf k xs ++ traceOf k ys := by
  simp [traceOf]

theorem traceOf_of_forall (k : Nat) (ys : List Event) (h : ∀ e ∈ ys, e.trace? = some k) :
    traceOf k ys = ys := by
  simp only [traceOf, List.filter_eq_self]
  intro e he
  simp [h e he]

theorem traceOf_of_ne (k t : Nat) (ys : List Event) (h : ∀ e ∈ ys, e.trace? = some t)
    (hkt : k ≠ t) : traceOf k ys = [] := by
  simp only [traceOf, List.filter_eq_nil_iff]
  intro e he
  simp [h e he]
  exact fun e => hkt e.symm

theorem firstStart_snoc (cs : List ChildRec) (c : ChildRec) (t : Nat) :
    firstStart (cs ++ [c]) t = firstStart cs c.tStart := by
  cases cs <;> rfl

theorem workerOk_mono (flags : Flags) (now now' k : Nat) (w : Worker) (tr : List Event)
    (hle : now ≤ now') (h : WorkerOk flags now k w tr) : WorkerOk flags now' k w tr := by
  obtain ⟨hist, h1, h2, h3, h4, hp⟩ := h
  refine ⟨hist, h1, h2, h3, h4, ?_⟩
  cases hpc : w.pc <;> simp only [phaseOk, hpc] at hp ⊢
  · obtain ⟨a, b, q, t⟩ := hp
    exact ⟨a, b, fun c hc => (q c hc).trans hle, fun hne => (t hne).trans hle⟩
  · obtain ⟨a, b, q, t⟩ := hp
    exact ⟨a, b, fun c hc => (q c hc).trans hle, fun hne => (t hne).trans hle⟩
  · obtain ⟨a, b, c, q, t⟩ := hp
    exact ⟨a, b, c, fun c hc => (q c hc).trans hle, fun hne => (t hne).trans hle⟩
  · obtain ⟨a, b, c, d, e, q, t⟩ := hp
    exact ⟨a, b, c, d, e, fun c hc => (q c hc).trans hle, t.trans hle⟩
  · obtain ⟨a, b, c, d, e, q, t⟩ := hp
    exact ⟨a, b, c, d, e, fun c hc => (q c hc).trans hle, t⟩
  · obtain ⟨a, b, c, d, e, q, t⟩ := hp
    exact ⟨a, b, c, d, e, fun c hc => (q c hc).trans hle, t.trans hle⟩
  · obtain ⟨a, b, c, d, e, q, t⟩ := hp
    exact ⟨a, b, c, d, e, fun c hc => (q c hc).trans hle, t.trans hle⟩
  · exact hp
  · exact hp

theorem traced_update (flags : Flags) (st : State) (h : Traced flags st) (t : Nat)
    (w w' : Worker) (hw : st.workers[t]? = some w) (new : List Event)
    (hnew : ∀ e ∈ new, e.trace? = some t)
    (hok : WorkerOk flags st.now t w (traceOf t st.events) →
      WorkerOk flags st.now t w' (traceOf t st.events ++ new))
    (wg' : Int) (nextId' : Nat) :
    Traced flags { st with workers := st.workers.set t w', wg := wg', nextId := nextId',
                           events := st.events ++ new } := by
  intro k
  have hk := h k
  have hlt : t < st.workers.length := by
    by_contra hge
    have : st.workers[t]? = none := by simp; omega
    rw [this] at hw; simp at hw
  by_cases hkt : k = t
  · subst hkt
    simp only [List.getElem?_set, hlt, if_true, traceOf_append, traceOf_of_forall k new hnew]
    rw [hw] at hk
    exact hok hk
  · have hne : ¬ t = k := fun e => hkt e.symm
    simp only [List.getElem?_set, hne, if_false, traceOf_append, traceOf_of_ne k t new hnew hkt,
      List.append_nil]
    exact hk

theorem ok_log (flags : Flags) (now k : Nat) (w : Worker) (tr : List Event)
    (h : WorkerOk flags now k w tr) (hpc : w.pc = .loopHead)
    (hlt : (w.j : Int) < flags.spanCount) :
    WorkerOk flags now k { w with pc := .afterLog }
      (tr ++ [.logInfo w.i (logMsg w.i w.j) now]) := by
  obtain ⟨hist, hi, hr, hj, hS, hp⟩ := h
  simp only [phaseOk, hpc] at hp
  obtain ⟨a, b, q, t⟩ := hp
  refine ⟨{ hist with cur := { hist.cur with tLog := now } }, hi, hr, hj, hS, ?_⟩
  simp only [phaseOk]
  refine ⟨a, ?_, ?_, q, t⟩
  · simp [b, Hist.base, Hist.curEvents, childEvents, hi, hj, Hist.root]
  · rw [← hj]; exact hlt

theorem ok_rootEnd (flags : Flags) (now k : Nat) (w : Worker) (tr : List Event)
    (h : WorkerOk flags now k w tr) (hpc : w.pc = .loopHead)
    (hlt : ¬ (w.j : Int) < flags.spanCount) :
    WorkerOk flags now k { w with pc := .afterRootEnd }
      (tr ++ [.spanEnd w.i w.rootSpan now]) := by
  obtain ⟨hist, hi, hr, hj, hS, hp⟩ := h
  simp only [phaseOk, hpc] at hp
  obtain ⟨a, b, q, t⟩ := hp
  refine ⟨{ hist with tEnd := now }, hi, hr, hj, hS, ?_⟩
  simp only [phaseOk]
  refine ⟨?_, ?_, q, t⟩
  · simp [b, Hist.base, hi, hr, Hist.root]
  · rw [← hj]; exact hlt

theorem ok_start (flags : Flags) (now k nextId : Nat) (w : Worker) (tr : List Event)
    (h : WorkerOk flags now k w tr) (hpc : w.pc = .afterLog) :
    WorkerOk flags now k
      { w with pc := .afterStart (Ctx.withSpan w.rootCtx nextId)
                      { name := childName w.i w.j, id := nextId, parent := w.rootCtx,
                        startTime := now } }
      (tr ++ [.spanStart w.i { name := childName w.i w.j, id := nextId, parent := w.rootCtx,
                               startTime := now }]) := by
  obtain ⟨hist, hi, hr, hj, hS, hp⟩ := h
  simp only [phaseOk, hpc] at hp
  obtain ⟨a, b, c, q, t⟩ := hp
  refine ⟨{ hist with cur := { hist.cur with id := nextId, tStart := now } }, hi, hr, hj, hS, ?_⟩
  simp only [phaseOk]
  refine ⟨a, ?_, c, ?_, ?_, q, ?_⟩
  · simp [b, Hist.base, Hist.curEvents, childEvents, hi, hj, Hist.root, childSpan, a, Hist.tail]
  · simp [Hist.curSpan, childSpan, hi, hj, a, Hist.tail, Hist.root]
  · simp [Span.ctx]
  · cases hcs : hist.cs with
    | nil => simp [firstStart]
    | cons d ds =>
      have := t (by simp [hcs])
      simpa [hcs, firstStart] using this

theorem ok_sleep (flags : Flags) (now k : Nat) (w : Worker) (tr : List Event) (ctx : Ctx)
    (span : Span) (h : WorkerOk flags now k w tr) (hpc : w.pc = .afterStart ctx span) :
    WorkerOk flags now k { w with pc := .sleeping ctx span (now + flags.spanDuration.toNat) }
      (tr ++ [.sleep w.i flags.spanDuration now]) := by
  obtain ⟨hist, hi, hr, hj, hS, hp⟩ := h
  simp only [phaseOk, hpc] at hp
  obtain ⟨a, b, c, d, e, q, t⟩ := hp
  refine ⟨{ hist with cur := { hist.cur with tSleep := now } }, hi, hr, hj, hS, ?_⟩
  simp only [phaseOk]
  refine ⟨a, ?_, c, ?_, e, q, trivial, t⟩
  · simp [b, Hist.base, Hist.curEvents, childEvents, hi, Hist.root, childSpan, Hist.tail]
  · simp [d, Hist.curSpan, childSpan, Hist.tail, Hist.root]

theorem ok_wake (flags : Flags) (now k : Nat) (w : Worker) (tr : List Event) (ctx : Ctx)
    (span : Span) (wake : Nat) (h : WorkerOk flags now k w tr)
    (hpc : w.pc = .sleeping ctx span wake) (hwake : wake ≤ now) :
    WorkerOk flags now k { w with pc := .afterSleep ctx span } tr := by
  obtain ⟨hist, hi, hr, hj, hS, hp⟩ := h
  simp only [phaseOk, hpc] at hp
  obtain ⟨a, b, c, d, e, q, wk, t⟩ := hp
  refine ⟨hist, hi, hr, hj, hS, ?_⟩
  simp only [phaseOk]
  refine ⟨a, b, c, d, e, q, ?_⟩
  rw [Nat.add_mul, Nat.one_mul]
  omega

theorem ok_end (flags : Flags) (now k : Nat) (w : Worker) (tr : List Event) (ctx : Ctx)
    (span : Span) (h : WorkerOk flags now k w tr) (hpc : w.pc = .afterSleep ctx span) :
    WorkerOk flags now k { w with pc := .afterEnd ctx span }
      (tr ++ [.spanEnd w.i span now]) := by
  obtain ⟨hist, hi, hr, hj, hS, hp⟩ := h
  simp only [phaseOk, hpc] at hp
  obtain ⟨a, b, c, d, e, q, t⟩ := hp
  refine ⟨{ hist with cur := { hist.cur with tEnd := now } }, hi, hr, hj, hS, ?_⟩
  simp only [phaseOk]
  refine ⟨a, ?_, c, ?_, e, ?_, t⟩
  · simp [b, d, Hist.base, Hist.curEvents, childEvents, hi, Hist.root, childSpan, Hist.tail,
      Hist.curSpan]
  · simp [d, Hist.curSpan, childSpan, Hist.tail, Hist.root]
  · intro x hx
    rcases List.mem_append.mp hx with hx | hx
    · exact q x hx
    · simp at hx
      simp [hx]

theorem ok_next (flags : Flags) (now k : Nat) (w : Worker) (tr : List Event) (ctx : Ctx)
    (span : Span) (h : WorkerOk flags now k w tr) (hpc : w.pc = .afterEnd ctx span) :
    WorkerOk flags now k { w with rootCtx := ctx, j := w.j + 1, pc := .loopHead } tr := by
  obtain ⟨hist, hi, hr, hj, hS, hp⟩ := h
  simp only [phaseOk, hpc] at hp
  obtain ⟨a, b, c, d, e, q, t⟩ := hp
  refine ⟨{ hist with cs := hist.cs ++ [hist.cur] }, hi, hr, ?_, ?_, ?_⟩
  · simp [hj]
  · simp only [List.length_append, List.length_singleton]
    omega
  simp only [phaseOk]
  refine ⟨?_, ?_, q, ?_⟩
  · simp [e, d, Hist.tail, chainCtx_snoc, Hist.curSpan, childSpan, Span.ctx, Hist.root]
  · simp [b, Hist.base, chainEvents_snoc, Hist.curEvents, Hist.tail, Hist.root]
  · intro _
    rw [firstStart_snoc]
    simpa using t

theorem ok_done (flags : Flags) (now k : Nat) (w : Worker) (tr : List Event)
    (h : WorkerOk flags now k w tr) (hpc : w.pc = .afterRootEnd) :
    WorkerOk flags now k { w with pc := .done } tr := by
  obtain ⟨hist, hi, hr, hj, hS, hp⟩ := h
  simp only [phaseOk, hpc] at hp
  exact ⟨hist, hi, hr, hj, hS, by simpa only [phaseOk] using hp⟩

theorem ok_go (flags : Flags) (now k : Nat) (w : Worker) (tr : List Event)
    (h : WorkerOk flags now k w tr) (hpc : w.pc = .notStarted) :
    WorkerOk flags now k { w with pc := .loopHead } tr := by
  obtain ⟨hist, hi, hr, hj, hS, hp⟩ := h
  simp only [phaseOk, hpc] at hp
  exact ⟨hist, hi, hr, hj, hS, by simpa only [phaseOk] using hp⟩

theorem traced_update_silent (flags : Flags) (st : State) (h : Traced flags st) (t : Nat)
    (w w' : Worker) (hw : st.workers[t]? = some w)
    (hok : WorkerOk flags st.now t w (traceOf t st.events) →
      WorkerOk flags st.now t w' (traceOf t st.events))
    (wg' : Int) :
    Traced flags { st with workers := st.workers.set t w', wg := wg' } := by
  have := traced_update flags st h t w w' hw [] (by simp) (by simpa using hok) wg' st.nextId
  simpa using this

theorem traced_workerStep (flags : Flags) (st : State) (k : Nat) (h : Traced flags st) :
    Traced flags (workerStep flags k st) := by
  unfold workerStep
  split
  · exact h
  · rename_i w hw
    have hi : w.i = k := by
      have := h k
      rw [hw] at this
      exact this.choose_spec.1
    split
    · exact h
    · rename_i hpc
      split
      · rename_i hlt
        exact traced_update flags st h k w _ hw _ (by simp [Event.trace?, hi])
          (fun ok => ok_log flags st.now k w _ ok hpc hlt) st.wg st.nextId
      · rename_i hlt
        exact traced_update flags st h k w _ hw _ (by simp [Event.trace?, hi])
          (fun ok => ok_rootEnd flags st.now k w _ ok hpc hlt) st.wg st.nextId
    · rename_i hpc
      exact traced_update flags st h k w _ hw _ (by simp [Event.trace?, hi])
        (fun ok => ok_start flags st.now k st.nextId w _ ok hpc) st.wg (st.nextId + 1)
    · rename_i ctx span hpc
      exact traced_update flags st h k w _ hw _ (by simp [Event.trace?, hi])
        (fun ok => ok_sleep flags st.now k w _ ctx span ok hpc) st.wg st.nextId
    · rename_i ctx span wake hpc
      split
      · rename_i hwake
        exact traced_update_silent flags st h k w _ hw
          (fun ok => ok_wake flags st.now k w _ ctx span wake ok hpc hwake) st.wg
      · exact h
    · rename_i ctx span hpc
      exact traced_update flags st h k w _ hw _ (by simp [Event.trace?, hi])
        (fun ok => ok_end flags st.now k w _ ctx span ok hpc) st.wg st.nextId
    · rename_i ctx span hpc
      exact traced_update_silent flags st h k w _ hw
        (fun ok => ok_next flags st.now k w _ ctx span ok hpc) st.wg
    · rename_i hpc
      exact traced_update_silent flags st h k w _ hw
        (fun ok => ok_done flags st.now k w _ ok hpc) (st.wg - 1)
    · exact h

theorem traced_frame (flags : Flags) (st st' : State) (h : Traced flags st)
    (hw : st'.workers = st.workers) (hnow : st.now ≤ st'.now)
    (hev : ∀ k, traceOf k st'.events = traceOf k st.events) : Traced flags st' := by
  intro k
  have hk := h k
  rw [hw, hev]
  split
  · rename_i w hwk
    rw [hwk] at hk
    exact workerOk_mono flags st.now st'.now k w _ hnow hk
  · rename_i hwk
    rw [hwk] at hk
    exact hk

theorem ok_root (flags : Flags) (now k nextId : Nat) :
    WorkerOk flags now k
      { i := k, rootCtx := Ctx.withSpan .background nextId,
        rootSpan := { name := "Root", id := nextId, parent := .background, startTime := now },
        j := 0, pc := .notStarted }
      [.spanStart k { name := "Root", id := nextId, parent := .background, startTime := now }] := by
  refine ⟨{ rootId := nextId, rootTime := now, cs := [], cur := ⟨0, 0, 0, 0, 0⟩, tEnd := 0 },
    rfl, rfl, rfl, by simp, ?_⟩
  simp [phaseOk, Hist.tail, Hist.base, Hist.root, chainCtx, chainEvents, Span.ctx]

theorem traced_mainStep (flags : Flags) (env : Env) (st : State)
    (hs : Shape flags env st) (h : Traced flags st) :
    Traced flags (mainStep flags env st) := by
  unfold mainStep
  split
  · -- forTest
    rename_i hm
    split
    · have hlen : st.workers.length = st.i := by
        have := hs.len
        simpa [hm] using this
      intro k
      have hk := h k
      simp only [traceOf_append]
      by_cases hki : k = st.i
      · subst hki
        have hnone : st.workers[st.i]? = none := by simp [hlen]
        rw [hnone] at hk
        simp only [hk, List.nil_append]
        have e3 : ∀ x : Worker, (st.workers ++ [x])[st.i]? = some x := by
          intro x
          rw [getElem?_snoc_eq_some]
          exact Or.inr ⟨hlen.symm, rfl⟩
        rw [e3]
        rw [traceOf_of_forall _ _ (by simp [Event.trace?])]
        exact ok_root flags st.now st.i st.nextId
      · have e1 : traceOf k [Event.spanStart st.i
            { name := "Root", id := st.nextId, parent := .background, startTime := st.now }] = [] :=
          traceOf_of_ne k st.i _ (by simp [Event.trace?]) hki
        simp only [e1, List.append_nil]
        have e2 : ∀ x : Worker, (st.workers ++ [x])[k]? = st.workers[k]? := by
          intro x
          rw [List.getElem?_append]
          split
          · rfl
          · have : [x][k - st.workers.length]? = none := by simp; omega
            rw [this]
            symm
            simp
            omega
        rw [e2]
        exact hk
    · exact traced_frame flags st _ h rfl (le_refl _) (fun _ => rfl)
  · exact traced_frame flags st _ h rfl (le_refl _) (fun _ => rfl)
  · split
    · rename_i w hw
      exact traced_update_silent flags st h st.i w _ hw
        (fun ok => ok_go flags st.now st.i w _ ok (by
          obtain ⟨v, hv, hvpc⟩ := hs.pend (Or.inr (by assumption))
          rw [hw] at hv
          injection hv with hv
          rw [hv]; exact hvpc)) st.wg
    · exact h
  · split
    · exact traced_frame flags st _ h rfl (le_refl _) (fun _ => rfl)
    · exact h
  · exact traced_frame flags st _ h rfl (le_refl _)
      (fun k => by simp [traceOf_append, traceOf, Event.trace?])
  · exact traced_frame flags st _ h rfl (le_refl _) (fun _ => rfl)
  · exact traced_frame flags st _ h rfl (le_refl _) (fun _ => rfl)
  · exact h
  · exact h

theorem traced_step (flags : Flags) (env : Env) (st : State) (c : Choice)
    (hs : Shape flags env st) (h : Traced flags st) : Traced flags (step flags env st c) := by
  unfold step
  split
  · exact h
  · cases c with
    | main => exact traced_mainStep flags env st hs h
    | worker k => exact traced_workerStep flags st k h
    | tick d => exact traced_frame flags st _ h rfl (Nat.le_add_right _ _) (fun _ => rfl)

theorem traced_boot (flags : Flags) (env : Env) (hb : Booted env) : Traced flags (boot env) := by
  obtain ⟨options, ho⟩ := boot_of_booted env hb
  rw [ho]
  intro k
  simp [State.fresh, traceOf]

theorem traced_main (flags : Flags) (env : Env) (hb : Booted env) (sched : List Choice) :
    Traced flags (main flags env sched) :=
  (runFrom_induction flags env (fun st => Shape flags env st ∧ Traced flags st)
    (fun st c h => ⟨shape_step flags env st c h.1, traced_step flags env st c h.1 h.2⟩) sched _
    ⟨shape_boot flags env hb, traced_boot flags env hb⟩).2

/-! ## The flush comes last -/

theorem step_of_terminal (flags : Flags) (env : Env) (st : State) (c : Choice)
    (h : st.main.terminal = true) : step flags env st c = st := by
  simp [step, h]

theorem runFrom_of_terminal (flags : Flags) (env : Env) (st : State) (sched : List Choice)
    (h : st.main.terminal = true) : runFrom flags env st sched = st := by
  induction sched with
  | nil => rfl
  | cons c cs ih =>
    show runFrom flags env (step flags env st c) cs = st
    rw [step_of_terminal flags env st c h]
    exact ih

theorem workerStep_events (flags : Flags) (k : Nat) (st : State) :
    (workerStep flags k st).main = st.main ∧
      ∃ new, (workerStep flags k st).events = st.events ++ new ∧
        ∀ e ∈ new, e.isFlush = false := by
  unfold workerStep
  split
  · exact ⟨rfl, [], by simp, by simp⟩
  · split
    · exact ⟨rfl, [], by simp, by simp⟩
    · split
      · exact ⟨rfl, [_], rfl, by simp [Event.isFlush]⟩
      · exact ⟨rfl, [_], rfl, by simp [Event.isFlush]⟩
    · exact ⟨rfl, [_], rfl, by simp [Event.isFlush]⟩
    · exact ⟨rfl, [_], rfl, by simp [Event.isFlush]⟩
    · split
      · exact ⟨rfl, [], by simp, by simp⟩
      · exact ⟨rfl, [], by simp, by simp⟩
    · exact ⟨rfl, [_], rfl, by simp [Event.isFlush]⟩
    · exact ⟨rfl, [], by simp, by simp⟩
    · exact ⟨rfl, [], by simp, by simp⟩
    · exact ⟨rfl, [], by simp, by simp⟩

theorem workerStep_of_done (flags : Flags) (k : Nat) (st : State)
    (h : ∀ w ∈ st.workers, w.pc = .done) : workerStep flags k st = st := by
  unfold workerStep
  split
  · rfl
  · rename_i w hw
    have := h w (List.mem_iff_getElem?.mpr ⟨k, hw⟩)
    simp [this]

theorem joined_of_terminal (pc : MainPc) (h : pc.terminal = true) : pc.joined = true := by
  cases pc <;> simp_all [MainPc.terminal, MainPc.joined]

theorem joined_of_flushDone (pc : MainPc) (h : pc.flushDone = true) : pc.joined = true := by
  cases pc <;> simp_all [MainPc.flushDone, MainPc.joined]

theorem flushDone_of_terminal (pc : MainPc) (h : pc.terminal = true) :
    pc.flushDone = true := by
  cases pc <;> simp_all [MainPc.terminal, MainPc.flushDone]

theorem mainStep_events (flags : Flags) (env : Env) (st : State) :
    (st.main = .forceFlush ∧ (mainStep flags env st).main.flushDone = true ∧
        (mainStep flags env st).events = st.events ++ [.forceFlush st.now]) ∨
      ((mainStep flags env st).main.flushDone = st.main.flushDone ∧
        ∃ new, (mainStep flags env st).events = st.events ++ new ∧
          (∀ e ∈ new, e.isFlush = false) ∧ (st.main.flushDone = true → new = [])) := by
  unfold mainStep
  split
  · rename_i hm
    split
    · exact Or.inr ⟨by simp [hm, MainPc.flushDone], [_], rfl, by simp [Event.isFlush],
        by simp [hm, MainPc.flushDone]⟩
    · exact Or.inr ⟨by simp [hm, MainPc.flushDone], [], by simp, by simp, by simp⟩
  · rename_i hm
    exact Or.inr ⟨by simp [hm, MainPc.flushDone], [], by simp, by simp, by simp⟩
  · rename_i hm
    split
    · exact Or.inr ⟨by simp [hm, MainPc.flushDone], [], by simp, by simp, by simp⟩
    · exact Or.inr ⟨rfl, [], by simp, by simp, by simp⟩
  · rename_i hm
    split
    · exact Or.inr ⟨by simp [hm, MainPc.flushDone], [], by simp, by simp, by simp⟩
    · exact Or.inr ⟨rfl, [], by simp, by simp, by simp⟩
  · rename_i hm
    exact Or.inl ⟨hm, rfl, rfl⟩
  · rename_i hm
    exact Or.inr ⟨by simp [hm, MainPc.flushDone], [], by simp, by simp, by simp⟩
  · rename_i hm
    exact Or.inr ⟨by simp [hm, MainPc.flushDone], [], by simp, by simp, by simp⟩
  · exact Or.inr ⟨rfl, [], by simp, by simp, by simp⟩
  · exact Or.inr ⟨rfl, [], by simp, by simp, by simp⟩

theorem flushLast_step (flags : Flags) (env : Env) (st : State) (c : Choice)
    (hs : Shape flags env st) (h : FlushLast st) : FlushLast (step flags env st c) := by
  unfold step
  split
  · exact h
  · cases c with
    | main =>
      rcases mainStep_events flags env st with ⟨hm, h1, h2⟩ | ⟨h1, new, h2, h3, h4⟩
      · have h0 : ∀ e ∈ st.events, e.isFlush = false := by
          simpa [FlushLast, hm, MainPc.flushDone] using h
        simp only [FlushLast, h1, if_true, h2]
        exact ⟨_, _, rfl, h0⟩
      · by_cases hd : st.main.flushDone = true
        · have hnew := h4 hd
          subst hnew
          simp only [FlushLast, h1, hd, if_true, h2, List.append_nil]
          simpa [FlushLast, hd] using h
        · have h0 : ∀ e ∈ st.events, e.isFlush = false := by
            simpa [FlushLast, hd] using h
          simp only [FlushLast, h1, hd, h2]
          simp only [Bool.false_eq_true, if_false, List.mem_append]
          rintro e (he | he)
          · exact h0 e he
          · exact h3 e he
    | worker k =>
      show FlushLast (workerStep flags k st)
      by_cases hd : st.main.flushDone = true
      · rw [workerStep_of_done flags k st (hs.joined (joined_of_flushDone _ hd))]
        exact h
      · obtain ⟨h1, new, h2, h3⟩ := workerStep_events flags k st
        have h0 : ∀ e ∈ st.events, e.isFlush = false := by
          simpa [FlushLast, hd] using h
        simp only [FlushLast, h1, h2, hd]
        simp only [Bool.false_eq_true, if_false, List.mem_append]
        rintro e (he | he)
        · exact h0 e he
        · exact h3 e he
    | tick d => exact h

theorem flushLast_main (flags : Flags) (env : Env) (hb : Booted env) (sched : List Choice) :
    FlushLast (main flags env sched) := by
  refine (runFrom_induction flags env (fun st => Shape flags env st ∧ FlushLast st)
    (fun st c h => ⟨shape_step flags env st c h.1, flushLast_step flags env st c h.1 h.2⟩)
    sched _ ⟨shape_boot flags env hb, ?_⟩).2
  obtain ⟨options, ho⟩ := boot_of_booted env hb
  rw [ho]
  simp [FlushLast, State.fresh, MainPc.flushDone]

/-! ## Every run can be completed -/

theorem todo_mainStep (flags : Flags) (env : Env) (st : State) (hs : Shape flags env st)
    (h : st.main.terminal = false) (hw : st.main = .wgWait → st.wg = 0) :
    (mainStep flags env st).todo flags < st.todo flags := by
  unfold mainStep
  split
  · rename_i hm
    split
    · rename_i hlt
      simp only [State.todo, hm, List.map_append, List.sum_append, List.map_cons, List.map_nil,
        List.sum_cons, List.sum_nil, Worker.todo]
      have hi : st.i < flags.parallelCount.toNat := by omega
      obtain ⟨d, hd⟩ : ∃ d, flags.parallelCount.toNat - st.i = d + 1 :=
        ⟨flags.parallelCount.toNat - st.i - 1, by omega⟩
      have hd' : flags.parallelCount.toNat - (st.i + 1) = d := by omega
      rw [hd, hd', Nat.mul_succ]
      omega
    · simp only [State.todo, hm]
      omega
  · rename_i hm
    simp only [State.todo, hm]
    omega
  · rename_i hm
    obtain ⟨w, hw, hwpc⟩ := hs.pend (Or.inr hm)
    simp only [hw, State.todo, hm]
    have := sum_map_set (Worker.todo flags.spanCount.toNat) st.workers st.i w
      { w with pc := .loopHead } hw
    simp only [Worker.todo, hwpc] at this
    omega
  · rename_i hm
    simp only [hw hm, if_true, State.todo, hm]
    omega
  · rename_i hm
    simp only [State.todo, hm]
    omega
  · rename_i hm
    simp only [State.todo, hm]
    omega
  · rename_i hm
    simp only [State.todo, hm]
    omega
  · rename_i hm
    simp [hm, MainPc.terminal] at h
  · rename_i hm
    simp [hm, MainPc.terminal] at h

theorem todo_workerStep (flags : Flags) (st : State) (k : Nat) (w : Worker)
    (hw : st.workers[k]? = some w) (hn : w.pc ≠ .notStarted) (hd : w.pc ≠ .done)
    (hwake : ∀ ctx span wake, w.pc = .sleeping ctx span wake → wake ≤ st.now) :
    (workerStep flags k st).todo flags < st.todo flags := by
  have key : ∀ w' : Worker, w'.todo flags.spanCount.toNat < w.todo flags.spanCount.toNat →
      ∀ (wg' : Int) (nextId' : Nat) (events' : List Event),
        State.todo flags { st with workers := st.workers.set k w', wg := wg', nextId := nextId',
                                   events := events' } < st.todo flags := by
    intro w' hlt wg' nextId' events'
    have := sum_map_set (Worker.todo flags.spanCount.toNat) st.workers k w w' hw
    simp only [State.todo]
    omega
  unfold workerStep
  simp only [hw]
  split
  · rename_i hpc; exact absurd hpc hn
  · rename_i hpc
    split
    · rename_i hlt
      refine key _ ?_ _ _ _
      simp only [Worker.todo, hpc]
      omega
    · refine key _ ?_ _ _ _
      simp only [Worker.todo, hpc]
      omega
  · rename_i hpc
    refine key _ ?_ _ _ _
    simp only [Worker.todo, hpc]
    omega
  · rename_i ctx span hpc
    refine key _ ?_ _ _ _
    simp only [Worker.todo, hpc]
    omega
  · rename_i ctx span wake hpc
    simp only [hwake ctx span wake hpc, if_true]
    refine key _ ?_ _ _ _
    simp only [Worker.todo, hpc]
    omega
  · rename_i ctx span hpc
    refine key _ ?_ _ _ _
    simp only [Worker.todo, hpc]
    omega
  · rename_i ctx span hpc
    refine key _ ?_ _ _ _
    simp only [Worker.todo, hpc]
    omega
  · rename_i hpc
    refine key _ ?_ _ _ _
    simp only [Worker.todo, hpc]
    omega
  · rename_i hpc; exact absurd hpc hd

theorem progress (flags : Flags) (env : Env) (st : State) (hs : Shape flags env st)
    (ht : st.main.terminal = false) :
    ∃ cs : List Choice, (runFrom flags env st cs).todo flags < st.todo flags := by
  by_cases hm : st.main = .wgWait → st.wg = 0
  · refine ⟨[.main], ?_⟩
    have : runFrom flags env st [.main] = mainStep flags env st := by
      simp [runFrom, step, ht]
    rw [this]
    exact todo_mainStep flags env st hs ht hm
  · have hwait : st.main = .wgWait := by
      by_contra h; exact hm (fun h' => absurd h' h)
    have hwg : st.wg ≠ 0 := fun h => hm (fun _ => h)
    have hsum : (st.workers.map Worker.live).sum ≠ 0 := by
      have := hs.wg
      simp only [hwait, reduceCtorEq, if_false] at this
      omega
    have : ∃ w ∈ st.workers, w.live ≠ 0 := by
      by_contra hall
      apply hsum
      rw [List.sum_eq_zero_iff]
      intro x hx
      obtain ⟨w, hw, rfl⟩ := List.mem_map.mp hx
      by_contra hne
      exact hall ⟨w, hw, hne⟩
    obtain ⟨w, hwmem, hlive⟩ := this
    obtain ⟨k, hk⟩ := List.mem_iff_getElem?.mp hwmem
    have hd : w.pc ≠ .done := by
      intro h; simp [Worker.live, h] at hlive
    have hn : w.pc ≠ .notStarted := by
      intro h
      have := (hs.fresh k w hk h).2
      simp [hwait] at this
    refine ⟨[.tick (w.nap st.now), .worker k], ?_⟩
    have : runFrom flags env st [.tick (w.nap st.now), .worker k] =
        workerStep flags k { st with now := st.now + w.nap st.now } := by
      simp [runFrom, step, ht]
    rw [this]
    have := todo_workerStep flags { st with now := st.now + w.nap st.now } k w hk hn hd (by
      intro ctx span wake hpc
      simp only [Worker.nap, hpc]
      omega)
    exact this

theorem can_finish (flags : Flags) (env : Env) :
    ∀ (n : Nat) (st : State), Shape flags env st → st.todo flags ≤ n →
      ∃ cs : List Choice, (runFrom flags env st cs).main.terminal = true := by
  intro n
  induction n with
  | zero =>
    intro st hs hn
    by_cases ht : st.main.terminal = true
    · exact ⟨[], ht⟩
    · obtain ⟨cs, hcs⟩ := progress flags env st hs (by simpa using ht)
      omega
  | succ n ih =>
    intro st hs hn
    by_cases ht : st.main.terminal = true
    · exact ⟨[], ht⟩
    · obtain ⟨cs, hcs⟩ := progress flags env st hs (by simpa using ht)
      have hs' : Shape flags env (runFrom flags env st cs) :=
        runFrom_induction flags env (Shape flags env) (fun st c => shape_step flags env st c)
          cs st hs
      obtain ⟨cs', hcs'⟩ := ih _ hs' (by omega)
      exact ⟨cs ++ cs', by rw [runFrom_append]; exact hcs'⟩

/-- Whatever has been scheduled so far, the schedule can be continued so that
`main` returns or panics. -/
theorem main_can_finish (flags : Flags) (env : Env) (hb : Booted env) (sched : List Choice) :
    ∃ cs : List Choice, (main flags env (sched ++ cs)).main.terminal = true := by
  obtain ⟨cs, hcs⟩ := can_finish flags env _ (main flags env sched)
    (shape_main flags env hb sched) (le_refl _)
  exact ⟨cs, by simpa [main, runFrom_append] using hcs⟩

/-! ## Reading the events -/

theorem chainEvents_length (flags : Flags) (k : Nat) (cs : List ChildRec) :
    ∀ (j : Nat) (p : Ctx), (chainEvents flags k j p cs).length = 4 * cs.length := by
  induction cs with
  | nil => intro j p; rfl
  | cons c cs ih =>
    intro j p
    simp only [chainEvents, List.length_append, ih, childEvents, List.length_cons,
      List.length_nil]
    omega

theorem chainEvents_started (flags : Flags) (k : Nat) (cs : List ChildRec) :
    ∀ (j : Nat) (p : Ctx),
      (chainEvents flags k j p cs).filterMap Event.started? = chainSpans k j p cs := by
  induction cs with
  | nil => intro j p; rfl
  | cons c cs ih =>
    intro j p
    simp [chainEvents, chainSpans, childEvents, List.filterMap_append, ih, Event.started?]

theorem chainEvents_ended (flags : Flags) (k : Nat) (cs : List ChildRec) :
    ∀ (j : Nat) (p : Ctx),
      (chainEvents flags k j p cs).filterMap Event.ended? = chainEnds k j p cs := by
  induction cs with
  | nil => intro j p; rfl
  | cons c cs ih =>
    intro j p
    simp [chainEvents, chainEnds, childEvents, List.filterMap_append, ih, Event.ended?]

theorem chainEnds_fst (k : Nat) (cs : List ChildRec) :
    ∀ (j : Nat) (p : Ctx), (chainEnds k j p cs).map Prod.fst = chainSpans k j p cs := by
  induction cs with
  | nil => intro j p; rfl
  | cons c cs ih => intro j p; simp [chainEnds, chainSpans, ih]

theorem chainEnds_snd (k : Nat) (cs : List ChildRec) :
    ∀ (j : Nat) (p : Ctx), (chainEnds k j p cs).map Prod.snd = cs.map ChildRec.tEnd := by
  induction cs with
  | nil => intro j p; rfl
  | cons c cs ih => intro j p; simp [chainEnds, ih]

theorem chainSpans_length (k : Nat) (cs : List ChildRec) :
    ∀ (j : Nat) (p : Ctx), (chainSpans k j p cs).length = cs.length := by
  induction cs with
  | nil => intro j p; rfl
  | cons c cs ih => intro j p; simp [chainSpans, ih]

theorem chainSpans_snoc (k : Nat) (cs : List ChildRec) (c : ChildRec) :
    ∀ (j : Nat) (p : Ctx),
      chainSpans k j p (cs ++ [c]) =
        chainSpans k j p cs ++ [childSpan k (j + cs.length) (chainCtx p cs) c] := by
  induction cs with
  | nil => intro j p; simp [chainSpans, chainCtx]
  | cons d ds ih =>
    intro j p
    have e : j + 1 + ds.length = j + (ds.length + 1) := by omega
    simp [chainSpans, ih, chainCtx, childSpan, Span.ctx, e]

theorem chainSpans_getElem? (k : Nat) (cs : List ChildRec) :
    ∀ (j : Nat) (p : Ctx) (m : Nat),
      (chainSpans k j p cs)[m]? =
        cs[m]?.map (childSpan k (j + m) (chainCtx p (cs.take m))) := by
  induction cs with
  | nil => intro j p m; simp [chainSpans]
  | cons c cs ih =>
    intro j p m
    cases m with
    | zero => simp [chainSpans, chainCtx]
    | succ m =>
      have e : j + 1 + m = j + (m + 1) := by omega
      simp [chainSpans, ih, chainCtx, childSpan, Span.ctx, e]

theorem chainEvents_getElem? (flags : Flags) (k : Nat) (cs : List ChildRec) :
    ∀ (j : Nat) (p : Ctx) (m r : Nat) (c : ChildRec), cs[m]? = some c → r < 4 →
      (chainEvents flags k j p cs)[4 * m + r]? =
        (childEvents flags k (j + m) (chainCtx p (cs.take m)) c)[r]? := by
  induction cs with
  | nil => intro j p m r c h; simp at h
  | cons d ds ih =>
    intro j p m r c h hr
    cases m with
    | zero =>
      simp at h
      subst h
      simp only [chainEvents, Nat.mul_zero, Nat.zero_add, Nat.add_zero, List.take_zero, chainCtx]
      rw [List.getElem?_append_left (by simpa [childEvents] using hr)]
    | succ m =>
      simp at h
      have e : j + 1 + m = j + (m + 1) := by omega
      have hlen : (childEvents flags k j p d).length = 4 := rfl
      simp only [chainEvents, List.take_succ_cons, chainCtx]
      rw [List.getElem?_append_right (by rw [hlen]; omega)]
      have e2 : 4 * (m + 1) + r - (childEvents flags k j p d).length = 4 * m + r := by
        rw [hlen]; omega
      rw [e2, ih (j + 1) _ m r c h hr, e]
      rfl

theorem form_of_ok (flags : Flags) (now k : Nat) (w : Worker) (tr : List Event)
    (hok : WorkerOk flags now k w tr) :
    ∃ h n fin, Form flags k tr h n fin ∧ (w.pc = .done → fin = true) := by
  obtain ⟨h, hi, hr, hj, hS, hp⟩ := hok
  cases hpc : w.pc <;> simp only [phaseOk, hpc] at hp
  · obtain ⟨a, b, q, t⟩ := hp
    exact ⟨h, 0, false, ⟨by simp [b], by omega, hS, by omega, by simp, by simp, by simp⟩,
      by simp⟩
  · obtain ⟨a, b, q, t⟩ := hp
    exact ⟨h, 0, false, ⟨by simp [b], by omega, hS, by omega, by simp, by simp, by simp⟩,
      by simp⟩
  · obtain ⟨a, b, c, q, t⟩ := hp
    exact ⟨h, 1, false, ⟨by simp [b], by omega, hS, by omega, by simp, by simp, by simp⟩,
      by simp⟩
  · obtain ⟨a, b, c, d, e, q, t⟩ := hp
    exact ⟨h, 2, false, ⟨by simp [b], by omega, hS, by omega, by simp, by simp, by simp⟩,
      by simp⟩
  · obtain ⟨a, b, c, d, e, q, t⟩ := hp
    exact ⟨h, 3, false, ⟨by simp [b], by omega, hS, by omega, by simp, by simp, by simp⟩,
      by simp⟩
  · obtain ⟨a, b, c, d, e, q, t⟩ := hp
    exact ⟨h, 3, false, ⟨by simp [b], by omega, hS, by omega, by simp, by simp, by simp⟩,
      by simp⟩
  · obtain ⟨a, b, c, d, e, q, t⟩ := hp
    refine ⟨{ h with cs := h.cs ++ [h.cur] }, 0, false, ⟨?_, by omega, ?_, by omega, by simp,
      by simp, by simp⟩, by simp⟩
    · simp [b, Hist.base, chainEvents_snoc, Hist.curEvents, Hist.tail, Hist.root]
    · simp only [List.length_append, List.length_singleton]
      omega
  · obtain ⟨b, c, q, t⟩ := hp
    exact ⟨h, 0, true, ⟨by simp [b], by omega, hS, by omega, fun _ => ⟨rfl, by omega⟩,
      fun _ => q, fun _ => t⟩, by simp⟩
  · obtain ⟨b, c, q, t⟩ := hp
    exact ⟨h, 0, true, ⟨by simp [b], by omega, hS, by omega, fun _ => ⟨rfl, by omega⟩,
      fun _ => q, fun _ => t⟩, by simp⟩

/-- At every moment of every run the events of iteration `k` are empty or in
normal form. -/
theorem trace_form (flags : Flags) (env : Env) (hb : Booted env) (sched : List Choice)
    (k : Nat) :
    traceOf k (main flags env sched).events = [] ∨
      ∃ h n fin, Form flags k (traceOf k (main flags env sched).events) h n fin := by
  have := traced_main flags env hb sched k
  split at this
  · obtain ⟨h, n, fin, hf, -⟩ := form_of_ok flags _ k _ _ this
    exact Or.inr ⟨h, n, fin, hf⟩
  · exact Or.inl this

/-- Once `main` is past `wg.Wait()` the events of every iteration
`k < parallelCount` are complete. -/
theorem trace_form_joined (flags : Flags) (env : Env) (hb : Booted env) (sched : List Choice)
    (hj : (main flags env sched).main.joined = true) (k : Nat)
    (hk : k < flags.parallelCount.toNat) :
    ∃ h, Form flags k (traceOf k (main flags env sched).events) h 0 true := by
  have hs := shape_main flags env hb sched
  have hlen : (main flags env sched).workers.length = flags.parallelCount.toNat := by
    have h1 := hs.len
    have h2 := hs.past (Or.inr hj)
    have h3 : ¬ ((main flags env sched).main = .wgAdd ∨
        (main flags env sched).main = .goStmt) := by
      rintro (h | h) <;> simp [h, MainPc.joined] at hj
    simp only [h3, if_false] at h1
    omega
  have := traced_main flags env hb sched k
  split at this
  · rename_i w hw
    have hdone := hs.joined hj w (List.mem_iff_getElem?.mpr ⟨k, hw⟩)
    obtain ⟨h, n, fin, hf, hfin⟩ := form_of_ok flags _ k _ _ this
    have hfin' := hfin hdone
    subst hfin'
    have hn := (hf.fin_n rfl).1
    subst hn
    exact ⟨h, hf⟩
  · rename_i hw
    have : k < (main flags env sched).workers.length := by omega
    simp at hw
    omega

/-- Once `main` is over the events of every iteration `k < parallelCount` are
complete. -/
theorem trace_form_final (flags : Flags) (env : Env) (hb : Booted env) (sched : List Choice)
    (ht : (main flags env sched).main.terminal = true) (k : Nat)
    (hk : k < flags.parallelCount.toNat) :
    ∃ h, Form flags k (traceOf k (main flags env sched).events) h 0 true :=
  trace_form_joined flags env hb sched (joined_of_terminal _ ht) k hk

/-- Iterations that `main` never begins have no events. -/
theorem trace_empty (flags : Flags) (env : Env) (hb : Booted env) (sched : List Choice)
    (k : Nat) (hk : flags.parallelCount.toNat ≤ k) :
    traceOf k (main flags env sched).events = [] := by
  have hs := shape_main flags env hb sched
  have hlen : (main flags env sched).workers.length ≤ flags.parallelCount.toNat := by
    have h1 := hs.len
    have h2 := hs.bound
    have h3 := hs.inLoop
    split at h1
    · have := h3 (by assumption); omega
    · omega
  have := traced_main flags env hb sched k
  split at this
  · rename_i w hw
    have : k < (main flags env sched).workers.length := by
      by_contra hge
      have : (main flags env sched).workers[k]? = none := by simp; omega
      rw [this] at hw; simp at hw
    omega
  · exact this

theorem form_starts (flags : Flags) (k : Nat) (tr : List Event) (h : Hist) (n : Nat)
    (fin : Bool) (hf : Form flags k tr h n fin) :
    tr.filterMap Event.started? = h.root :: chainSpans k 0 h.root.ctx (h.begun n) := by
  have hn := hf.n_le
  rw [hf.eq]
  simp only [Hist.base, List.filterMap_append, List.filterMap_cons, Event.started?,
    chainEvents_started, Hist.begun, Hist.curEvents, childEvents]
  have hfin : List.filterMap Event.started?
      (if fin = true then [Event.spanEnd k h.root h.tEnd] else []) = [] := by
    split <;> simp [Event.started?]
  rw [hfin]
  interval_cases n <;>
    simp [Event.started?, chainSpans_snoc, Hist.tail, Hist.root]

theorem form_ends (flags : Flags) (k : Nat) (tr : List Event) (h : Hist) (n : Nat)
    (fin : Bool) (hf : Form flags k tr h n fin) :
    tr.filterMap Event.ended? =
      chainEnds k 0 h.root.ctx h.cs ++ (if fin = true then [(h.root, h.tEnd)] else []) := by
  have hn := hf.n_le
  rw [hf.eq]
  simp only [Hist.base, List.filterMap_append, List.filterMap_cons, Event.ended?,
    chainEvents_ended, Hist.curEvents, childEvents]
  have hcur : List.filterMap Event.ended? (List.take n
      [Event.logInfo k (logMsg k h.cs.length) h.cur.tLog,
        Event.spanStart k (childSpan k h.cs.length h.tail h.cur),
        Event.sleep k flags.spanDuration h.cur.tSleep,
        Event.spanEnd k (childSpan k h.cs.length h.tail h.cur) h.cur.tEnd]) = [] := by
    interval_cases n <;> simp [Event.ended?]
  rw [hcur]
  split <;> simp [Event.ended?]

theorem chainSpans_names (k : Nat) (cs : List ChildRec) :
    ∀ (j : Nat) (p : Ctx),
      (chainSpans k j p cs).map Span.name = (List.range' j cs.length).map (childName k) := by
  induction cs with
  | nil => intro j p; rfl
  | cons c cs ih => intro j p; simp [chainSpans, ih, childSpan, List.range'_succ]

theorem chainSpans_parent (k : Nat) (cs : List ChildRec) :
    ∀ (j : Nat) (p : Ctx), p ≠ Ctx.background →
      ∀ s ∈ chainSpans k j p cs, s.parent ≠ Ctx.background := by
  induction cs with
  | nil => intro j p _ s hs; simp [chainSpans] at hs
  | cons c cs ih =>
    intro j p hp s hs
    simp only [chainSpans, List.mem_cons] at hs
    rcases hs with rfl | hs
    · exact hp
    · exact ih (j + 1) _ (by simp [Span.ctx]) s hs

theorem chain_link (k : Nat) (r : Span) (ext : List ChildRec) (j : Nat) (s s' : Span)
    (h : (r :: chainSpans k 0 r.ctx ext)[j]? = some s)
    (h' : (r :: chainSpans k 0 r.ctx ext)[j + 1]? = some s') : s'.parent = s.ctx := by
  cases j with
  | zero =>
    simp only [List.getElem?_cons_zero, Option.some.injEq] at h
    subst h
    simp only [Nat.zero_add, List.getElem?_cons_succ, chainSpans_getElem?, List.take_zero,
      chainCtx, Option.map_eq_some'] at h'
    obtain ⟨c, -, rfl⟩ := h'
    rfl
  | succ m =>
    simp only [List.getElem?_cons_succ, chainSpans_getElem?, Option.map_eq_some'] at h h'
    obtain ⟨c, hc, rfl⟩ := h
    obtain ⟨c', hc', rfl⟩ := h'
    simp only [childSpan, Span.ctx]
    rw [List.take_succ, hc, Option.toList_some, chainCtx_snoc]

theorem chain_name (k : Nat) (r : Span) (p : Ctx) (ext : List ChildRec) (m : Nat) (s : Span)
    (h : (r :: chainSpans k 0 p ext)[m + 1]? = some s) : s.name = childName k m := by
  simp only [List.getElem?_cons_succ, chainSpans_getElem?, Option.map_eq_some'] at h
  obtain ⟨c, -, rfl⟩ := h
  simp [childSpan]

/-- The spans of iteration `k` are empty or the root followed by a chain. -/
theorem starts_form (flags : Flags) (env : Env) (hb : Booted env) (sched : List Choice)
    (k : Nat) :
    startsOf k (main flags env sched).events = [] ∨
      ∃ (r : Span) (ext : List ChildRec), r.parent = Ctx.background ∧ r.name = "Root" ∧
        ext.length ≤ flags.spanCount.toNat ∧
        startsOf k (main flags env sched).events = r :: chainSpans k 0 r.ctx ext := by
  rcases trace_form flags env hb sched k with h | ⟨h, n, fin, hf⟩
  · left; simp [startsOf, h]
  · right
    refine ⟨h.root, h.begun n, rfl, rfl, ?_, form_starts flags k _ h n fin hf⟩
    have := hf.busy
    have := hf.len_le
    simp only [Hist.begun]
    split
    · simp only [List.length_append, List.length_singleton]
      have := hf.busy (by omega)
      omega
    · assumption

/-- Claim C1. For every worker index `i` and every `spanCount = S`, in every run
and at every moment of it, the spans started for worker `i` form a strict linear
chain: the first one (the root, named `Root`) is started with the background
context as parent, and every later one is started with the context returned by
the start of the span just before it, so child `0` hangs off the root and child
`j ≥ 1` off child `j - 1`, never off the root.  When `main` is over, worker
`i < P` has started its root and all `S` children. -/
theorem linear_chain (P S : Nat) (D : Int) (env : Env) (hb : Booted env)
    (sched : List Choice) (i : Nat) :
    (∀ r, (startsOf i (main ⟨S, P, D⟩ env sched).events)[0]? = some r →
      r.parent = Ctx.background ∧ r.name = "Root") ∧
    (∀ j s s', (startsOf i (main ⟨S, P, D⟩ env sched).events)[j]? = some s →
      (startsOf i (main ⟨S, P, D⟩ env sched).events)[j + 1]? = some s' →
      s'.parent = s.ctx ∧ s'.name = childName i j) ∧
    (∀ j r s', (startsOf i (main ⟨S, P, D⟩ env sched).events)[0]? = some r →
      (startsOf i (main ⟨S, P, D⟩ env sched).events)[j + 2]? = some s' →
      s'.parent ≠ r.ctx) ∧
    ((main ⟨S, P, D⟩ env sched).main.terminal = true → i < P →
      (startsOf i (main ⟨S, P, D⟩ env sched).events).length = S + 1) := by
  have hlink : ∀ j s s', (startsOf i (main ⟨S, P, D⟩ env sched).events)[j]? = some s →
      (startsOf i (main ⟨S, P, D⟩ env sched).events)[j + 1]? = some s' →
      s'.parent = s.ctx ∧ s'.name = childName i j := by
    intro j s s' h h'
    rcases starts_form ⟨S, P, D⟩ env hb sched i with e | ⟨r, ext, -, -, -, e⟩
    · rw [e] at h; simp at h
    · rw [e] at h h'
      exact ⟨chain_link i r ext j s s' h h', chain_name i r _ ext j s' h'⟩
  have hroot : ∀ r, (startsOf i (main ⟨S, P, D⟩ env sched).events)[0]? = some r →
      r.parent = Ctx.background ∧ r.name = "Root" := by
    intro r h
    rcases starts_form ⟨S, P, D⟩ env hb sched i with e | ⟨r', ext, hp, hn, -, e⟩
    · rw [e] at h; simp at h
    · rw [e] at h
      simp only [List.getElem?_cons_zero, Option.some.injEq] at h
      subst h
      exact ⟨hp, hn⟩
  refine ⟨hroot, hlink, ?_, ?_⟩
  · intro j r s' h0 h2 heq
    have hlt : j + 1 < (startsOf i (main ⟨S, P, D⟩ env sched).events).length := by
      have := (List.getElem?_eq_some_iff.mp h2).1
      omega
    obtain ⟨s, hs⟩ : ∃ s, (startsOf i (main ⟨S, P, D⟩ env sched).events)[j + 1]? = some s :=
      ⟨_, List.getElem?_eq_getElem hlt⟩
    obtain ⟨q, hq⟩ : ∃ q, (startsOf i (main ⟨S, P, D⟩ env sched).events)[j]? = some q :=
      ⟨_, List.getElem?_eq_getElem (by omega)⟩
    have h1 := (hlink (j + 1) s s' hs h2).1
    have h3 := (hlink j q s hq hs).1
    rw [h1] at heq
    simp only [Span.ctx, Ctx.withSpan.injEq] at heq
    rw [h3, (hroot r h0).1] at heq
    simp [Span.ctx] at heq
  · intro ht hi
    obtain ⟨h, hf⟩ := trace_form_final ⟨S, P, D⟩ env hb sched ht i (by simpa using hi)
    have := form_starts _ i _ h 0 true hf
    simp only [startsOf, this, List.length_cons, chainSpans_length, Hist.begun]
    have := (hf.fin_n rfl).2
    simp at this ⊢
    exact this

set_option maxRecDepth 100000 in
/-- Instance of `linear_chain` at `parallelCount = 1`, `spanCount = 2`: after `sampleSchedule` worker `0`
has started three spans. -/
theorem linear_chain_witness :
    (startsOf 0 (main ⟨2, 1, 0⟩ sampleEnv sampleSchedule).events).length = 2 + 1 :=
  (linear_chain 1 2 0 sampleEnv (by decide) sampleSchedule 0).2.2.2 (by decide) (by decide)

/-! ## Counting spans -/

theorem countP_partition (q : Event → Bool) (n : Nat) :
    ∀ evs : List Event, (∀ e ∈ evs, q e = true → ∃ t, t < n ∧ e.trace? = some t) →
      evs.countP q = ∑ k in Finset.range n, (traceOf k evs).countP q := by
  intro evs
  induction evs with
  | nil => intro _; simp [traceOf]
  | cons e es ih =>
    intro h
    have ih' := ih (fun x hx => h x (List.mem_cons_of_mem _ hx))
    have hstep : ∀ k, (traceOf k (e :: es)).countP q =
        (traceOf k es).countP q + (if e.trace? = some k ∧ q e = true then 1 else 0) := by
      intro k
      simp only [traceOf, List.filter_cons]
      by_cases hk : e.trace? = some k
      · simp only [hk, decide_True, if_true, List.countP_cons, true_and]
      · simp [hk]
    simp only [hstep, Finset.sum_add_distrib, ← ih', List.countP_cons]
    congr 1
    by_cases hq : q e = true
    · obtain ⟨t, ht, het⟩ := h e (List.mem_cons_self _ _) hq
      simp only [hq, if_true, het, Option.some.injEq, and_true]
      rw [Finset.sum_ite_eq]
      simp [ht]
    · simp [hq]

theorem countP_isRootStart (tr : List Event) :
    tr.countP Event.isRootStart = (tr.filterMap Event.started?).countP Span.isRoot := by
  induction tr with
  | nil => rfl
  | cons e es ih =>
    rw [List.countP_cons, ih]
    cases e <;> simp [Event.isRootStart, Event.started?, List.filterMap_cons, List.countP_cons]

theorem countP_isChildStart (tr : List Event) :
    tr.countP Event.isChildStart =
      (tr.filterMap Event.started?).countP (fun s => !s.isRoot) := by
  induction tr with
  | nil => rfl
  | cons e es ih =>
    rw [List.countP_cons, ih]
    cases e <;> simp [Event.isChildStart, Event.started?, List.filterMap_cons, List.countP_cons]

theorem countP_isRootEnd (tr : List Event) :
    tr.countP Event.isRootEnd =
      ((tr.filterMap Event.ended?).map Prod.fst).countP Span.isRoot := by
  induction tr with
  | nil => rfl
  | cons e es ih =>
    rw [List.countP_cons, ih]
    cases e <;> simp [Event.isRootEnd, Event.ended?, List.filterMap_cons, List.countP_cons]

theorem countP_isChildEnd (tr : List Event) :
    tr.countP Event.isChildEnd =
      ((tr.filterMap Event.ended?).map Prod.fst).countP (fun s => !s.isRoot) := by
  induction tr with
  | nil => rfl
  | cons e es ih =>
    rw [List.countP_cons, ih]
    cases e <;> simp [Event.isChildEnd, Event.ended?, List.filterMap_cons, List.countP_cons]

theorem chainSpans_countP_root (k : Nat) (cs : List ChildRec) (j : Nat) (p : Ctx)
    (hp : p ≠ Ctx.background) :
    (chainSpans k j p cs).countP Span.isRoot = 0 ∧
      (chainSpans k j p cs).countP (fun s => !s.isRoot) = cs.length := by
  have h := chainSpans_parent k cs j p hp
  constructor
  · rw [List.countP_eq_zero]
    intro s hs
    simp [Span.isRoot, h s hs]
  · rw [← chainSpans_length k cs j p, List.countP_eq_length]
    intro s hs
    simp [Span.isRoot, h s hs]

/-- The numbers of span events in a trace in normal form. -/
theorem form_counts (flags : Flags) (k : Nat) (tr : List Event) (h : Hist) (n : Nat)
    (fin : Bool) (hf : Form flags k tr h n fin) :
    tr.countP Event.isRootStart = 1 ∧ tr.countP Event.isChildStart = (h.begun n).length ∧
      tr.countP Event.isRootEnd = (if fin = true then 1 else 0) ∧
      tr.countP Event.isChildEnd = h.cs.length := by
  have hs := form_starts flags k tr h n fin hf
  have he := form_ends flags k tr h n fin hf
  have hne : h.root.ctx ≠ Ctx.background := by simp [Span.ctx]
  have c1 := chainSpans_countP_root k (h.begun n) 0 h.root.ctx hne
  have c2 := chainSpans_countP_root k h.cs 0 h.root.ctx hne
  have hr : h.root.isRoot = true := by simp [Span.isRoot, Hist.root]
  refine ⟨?_, ?_, ?_, ?_⟩
  · rw [countP_isRootStart, hs, List.countP_cons, c1.1]
    simp [hr]
  · rw [countP_isChildStart, hs, List.countP_cons, c1.2]
    simp [hr]
  · rw [countP_isRootEnd, he, List.map_append, chainEnds_fst, List.countP_append,
      c2.1]
    split <;> simp [hr]
  · rw [countP_isChildEnd, he, List.map_append, chainEnds_fst, List.countP_append,
      c2.2]
    split <;> simp [hr]

theorem trace_lt (flags : Flags) (env : Env) (hb : Booted env) (sched : List Choice)
    (e : Event) (he : e ∈ (main flags env sched).events) (t : Nat) (ht : e.trace? = some t) :
    t < flags.parallelCount.toNat := by
  by_contra hge
  have := trace_empty flags env hb sched t (by omega)
  have hmem : e ∈ traceOf t (main flags env sched).events := by
    simp [traceOf, he, ht]
  rw [this] at hmem
  simp at hmem

/-- A count of span events over the whole run is the sum of the counts over
the loop iterations. -/
theorem count_split (flags : Flags) (env : Env) (hb : Booted env) (sched : List Choice)
    (q : Event → Bool) (hq : ∀ e, q e = true → e.isFlush = false) :
    (main flags env sched).events.countP q =
      ∑ k in Finset.range flags.parallelCount.toNat,
        (traceOf k (main flags env sched).events).countP q := by
  apply countP_partition
  intro e he hqe
  have hfl := hq e hqe
  cases e with
  | forceFlush t => simp [Event.isFlush] at hfl
  | spanStart t s => exact ⟨t, trace_lt flags env hb sched _ he t rfl, rfl⟩
  | spanEnd t s u => exact ⟨t, trace_lt flags env hb sched _ he t rfl, rfl⟩
  | logInfo t m u => exact ⟨t, trace_lt flags env hb sched _ he t rfl, rfl⟩
  | sleep t d u => exact ⟨t, trace_lt flags env hb sched _ he t rfl, rfl⟩

/-- The span events of one iteration at any moment. -/
theorem trace_counts (flags : Flags) (env : Env) (hb : Booted env) (sched : List Choice)
    (k : Nat) :
    (traceOf k (main flags env sched).events).countP Event.isRootStart ≤ 1 ∧
      (traceOf k (main flags env sched).events).countP Event.isChildStart ≤
        flags.spanCount.toNat ∧
      (traceOf k (main flags env sched).events).countP Event.isChildStart ≤
        (traceOf k (main flags env sched).events).countP Event.isChildEnd + 1 := by
  rcases trace_form flags env hb sched k with h | ⟨h, n, fin, hf⟩
  · simp [h]
  · obtain ⟨c1, c2, -, c4⟩ := form_counts flags k _ h n fin hf
    rw [c1, c2, c4]
    have h1 := hf.len_le
    have h2 := hf.busy
    simp only [Hist.begun]
    split
    · have := h2 (by omega)
      simp only [List.length_append, List.length_singleton]
      omega
    · omega

/-- The span events of one iteration once `main` is past `wg.Wait()`. -/
theorem trace_counts_joined (flags : Flags) (env : Env) (hb : Booted env)
    (sched : List Choice) (hj : (main flags env sched).main.joined = true) (k : Nat)
    (hk : k < flags.parallelCount.toNat) :
    (traceOf k (main flags env sched).events).countP Event.isRootStart = 1 ∧
      (traceOf k (main flags env sched).events).countP Event.isChildStart =
        flags.spanCount.toNat ∧
      (traceOf k (main flags env sched).events).countP Event.isRootEnd = 1 ∧
      (traceOf k (main flags env sched).events).countP Event.isChildEnd =
        flags.spanCount.toNat := by
  obtain ⟨h, hf⟩ := trace_form_joined flags env hb sched hj k hk
  obtain ⟨c1, c2, c3, c4⟩ := form_counts flags k _ h 0 true hf
  have := (hf.fin_n rfl).2
  refine ⟨c1, ?_, by simpa using c3, by omega⟩
  rw [c2]
  simpa [Hist.begun] using this

/-- The span events of one iteration once `main` is over. -/
theorem trace_counts_final (flags : Flags) (env : Env) (hb : Booted env)
    (sched : List Choice) (ht : (main flags env sched).main.terminal = true) (k : Nat)
    (hk : k < flags.parallelCount.toNat) :
    (traceOf k (main flags env sched).events).countP Event.isRootStart = 1 ∧
      (traceOf k (main flags env sched).events).countP Event.isChildStart =
        flags.spanCount.toNat ∧
      (traceOf k (main flags env sched).events).countP Event.isRootEnd = 1 ∧
      (traceOf k (main flags env sched).events).countP Event.isChildEnd =
        flags.spanCount.toNat :=
  trace_counts_joined flags env hb sched (joined_of_terminal _ ht) k hk

/-- The span events of the whole run once `main` is past `wg.Wait()`. -/
theorem run_counts_joined (flags : Flags) (env : Env) (hb : Booted env)
    (sched : List Choice) (hj : (main flags env sched).main.joined = true) :
    (main flags env sched).events.countP Event.isRootStart = flags.parallelCount.toNat ∧
      (main flags env sched).events.countP Event.isChildStart =
        flags.parallelCount.toNat * flags.spanCount.toNat ∧
      (main flags env sched).events.countP Event.isRootEnd = flags.parallelCount.toNat ∧
      (main flags env sched).events.countP Event.isChildEnd =
        flags.parallelCount.toNat * flags.spanCount.toNat := by
  have key := fun k (hk : k ∈ Finset.range flags.parallelCount.toNat) =>
    trace_counts_joined flags env hb sched hj k (Finset.mem_range.mp hk)
  refine ⟨?_, ?_, ?_, ?_⟩
  · rw [count_split flags env hb sched _ (by intro e; cases e <;> simp [Event.isRootStart, Event.isFlush]),
      Finset.sum_congr rfl (fun k hk => (key k hk).1)]
    simp
  · rw [count_split flags env hb sched _ (by intro e; cases e <;> simp [Event.isChildStart, Event.isFlush]),
      Finset.sum_congr rfl (fun k hk => (key k hk).2.1)]
    simp
  · rw [count_split flags env hb sched _ (by intro e; cases e <;> simp [Event.isRootEnd, Event.isFlush]),
      Finset.sum_congr rfl (fun k hk => (key k hk).2.2.1)]
    simp
  · rw [count_split flags env hb sched _ (by intro e; cases e <;> simp [Event.isChildEnd, Event.isFlush]),
      Finset.sum_congr rfl (fun k hk => (key k hk).2.2.2)]
    simp

/-- The span events of the whole run once `main` is over. -/
theorem run_counts_final (flags : Flags) (env : Env) (hb : Booted env)
    (sched : List Choice) (ht : (main flags env sched).main.terminal = true) :
    (main flags env sched).events.countP Event.isRootStart = flags.parallelCount.toNat ∧
      (main flags env sched).events.countP Event.isChildStart =
        flags.parallelCount.toNat * flags.spanCount.toNat ∧
      (main flags env sched).events.countP Event.isRootEnd = flags.parallelCount.toNat ∧
      (main flags env sched).events.countP Event.isChildEnd =
        flags.parallelCount.toNat * flags.spanCount.toNat :=
  run_counts_joined flags env hb sched (joined_of_terminal _ ht)

/-- The span starts of the whole run at any moment. -/
theorem run_counts_le (flags : Flags) (env : Env) (hb : Booted env) (sched : List Choice) :
    (main flags env sched).events.countP Event.isRootStart ≤ flags.parallelCount.toNat ∧
      (main flags env sched).events.countP Event.isChildStart ≤
        flags.parallelCount.toNat * flags.spanCount.toNat := by
  constructor
  · rw [count_split flags env hb sched _ (by intro e; cases e <;> simp [Event.isRootStart, Event.isFlush])]
    calc _ ≤ ∑ _k in Finset.range flags.parallelCount.toNat, 1 :=
          Finset.sum_le_sum (fun k _ => (trace_counts flags env hb sched k).1)
      _ = _ := by simp
  · rw [count_split flags env hb sched _ (by intro e; cases e <;> simp [Event.isChildStart, Event.isFlush])]
    calc _ ≤ ∑ _k in Finset.range flags.parallelCount.toNat, flags.spanCount.toNat :=
          Finset.sum_le_sum (fun k _ => (trace_counts flags env hb sched k).2.1)
      _ = _ := by simp

theorem freshIds_mainStep (flags : Flags) (env : Env) (st : State) (h : FreshIds st) :
    FreshIds (mainStep flags env st) := by
  unfold FreshIds at h ⊢
  unfold mainStep
  repeat' split
  all_goals
    simp only [List.filterMap_append, List.map_append, h, List.filterMap_cons,
      List.filterMap_nil, Event.started?, List.map_cons, List.map_nil, List.range_succ,
      List.append_nil]

theorem freshIds_workerStep (flags : Flags) (k : Nat) (st : State) (h : FreshIds st) :
    FreshIds (workerStep flags k st) := by
  unfold FreshIds at h ⊢
  unfold workerStep
  repeat' split
  all_goals
    simp only [List.filterMap_append, List.map_append, h, List.filterMap_cons,
      List.filterMap_nil, Event.started?, List.map_cons, List.map_nil, List.range_succ,
      List.append_nil]

theorem freshIds_main (flags : Flags) (env : Env) (sched : List Choice) :
    FreshIds (main flags env sched) := by
  refine runFrom_induction flags env FreshIds ?_ sched _ ?_
  · intro st c h
    unfold step
    split
    · exact h
    · cases c with
      | main => exact freshIds_mainStep flags env st h
      | worker k => exact freshIds_workerStep flags k st h
      | tick d => exact h
  · unfold boot
    repeat' split
    all_goals simp [FreshIds, State.fresh]

/-- Claim C2. For every `parallelCount = P ≥ 0` and `spanCount = S ≥ 0`, a run in which
pipeline construction succeeds starts exactly `P` root spans and exactly `P * S`
child spans, one root and `S` children per worker: these are the numbers once
`main` is over, under every schedule; they are never exceeded before; the spans
counted are distinct, no two starts sharing an identifier; and every run can be
continued until `main` is over. -/
theorem span_counts (P S : Nat) (D : Int) (env : Env) (hb : Booted env)
    (sched : List Choice) :
    ((main ⟨S, P, D⟩ env sched).main.terminal = true →
      (main ⟨S, P, D⟩ env sched).events.countP Event.isRootStart = P ∧
      (main ⟨S, P, D⟩ env sched).events.countP Event.isChildStart = P * S ∧
      ∀ i, i < P →
        (traceOf i (main ⟨S, P, D⟩ env sched).events).countP Event.isRootStart = 1 ∧
        (traceOf i (main ⟨S, P, D⟩ env sched).events).countP Event.isChildStart = S) ∧
    ((main ⟨S, P, D⟩ env sched).events.countP Event.isRootStart ≤ P ∧
      (main ⟨S, P, D⟩ env sched).events.countP Event.isChildStart ≤ P * S) ∧
    (((main ⟨S, P, D⟩ env sched).events.filterMap Event.started?).map Span.id).Nodup ∧
    ∃ cs, (main ⟨S, P, D⟩ env (sched ++ cs)).main.terminal = true := by
  refine ⟨?_, ?_, ?_, main_can_finish _ env hb sched⟩
  rotate_left 2
  · rw [freshIds_main ⟨S, P, D⟩ env sched]
    exact List.nodup_range _
  · intro ht
    obtain ⟨c1, c2, -, -⟩ := run_counts_final ⟨S, P, D⟩ env hb sched ht
    refine ⟨by simpa using c1, by simpa using c2, ?_⟩
    intro i hi
    obtain ⟨d1, d2, -, -⟩ := trace_counts_final ⟨S, P, D⟩ env hb sched ht i (by simpa using hi)
    exact ⟨d1, by simpa using d2⟩
  · simpa using run_counts_le ⟨S, P, D⟩ env hb sched

set_option maxRecDepth 100000 in
/-- Instance of `span_counts` at `parallelCount = 1`, `spanCount = 2` after `sampleSchedule`: one root span
and two child spans. -/
theorem span_counts_witness :
    (main ⟨2, 1, 0⟩ sampleEnv sampleSchedule).events.countP Event.isRootStart = 1 ∧
      (main ⟨2, 1, 0⟩ sampleEnv sampleSchedule).events.countP Event.isChildStart = 1 * 2 :=
  ⟨((span_counts 1 2 0 sampleEnv (by decide) sampleSchedule).1 (by decide)).1,
    ((span_counts 1 2 0 sampleEnv (by decide) sampleSchedule).1 (by decide)).2.1⟩

/-- The names of the spans of iteration `k` when the passes `ext` have begun. -/
theorem starts_names (flags : Flags) (env : Env) (hb : Booted env) (sched : List Choice)
    (k : Nat) :
    startsOf k (main flags env sched).events = [] ∨
      ∃ c, c ≤ flags.spanCount.toNat ∧
        (startsOf k (main flags env sched).events).map Span.name =
          "Root" :: (List.range c).map (childName k) := by
  rcases starts_form flags env hb sched k with h | ⟨r, ext, -, hn, hle, e⟩
  · exact Or.inl h
  · refine Or.inr ⟨ext.length, hle, ?_⟩
    rw [e, List.map_cons, hn, chainSpans_names, List.range_eq_range']

theorem starts_names_final (flags : Flags) (env : Env) (hb : Booted env)
    (sched : List Choice) (ht : (main flags env sched).main.terminal = true) (k : Nat)
    (hk : k < flags.parallelCount.toNat) :
    (startsOf k (main flags env sched).events).map Span.name =
      "Root" :: (List.range flags.spanCount.toNat).map (childName k) := by
  obtain ⟨h, hf⟩ := trace_form_final flags env hb sched ht k hk
  have := form_starts flags k _ h 0 true hf
  have hlen := (hf.fin_n rfl).2
  simp only [Hist.begun] at this
  simp only [startsOf, this, List.map_cons, chainSpans_names, List.range_eq_range']
  simp [Hist.root, hlen]

theorem countP_startsNamed (a : String) (tr : List Event) :
    tr.countP (Event.startsNamed a) = ((tr.filterMap Event.started?).map Span.name).count a := by
  induction tr with
  | nil => rfl
  | cons e es ih =>
    rw [List.countP_cons, ih]
    cases e with
    | spanStart t s =>
      simp only [Event.startsNamed, Event.started?, List.filterMap_cons, List.map_cons,
        List.count_cons]
      by_cases h : s.name = a <;> simp [h]
    | spanEnd t s u => simp [Event.startsNamed, Event.started?, List.filterMap_cons]
    | logInfo t m u => simp [Event.startsNamed, Event.started?, List.filterMap_cons]
    | sleep t d u => simp [Event.startsNamed, Event.started?, List.filterMap_cons]
    | forceFlush u => simp [Event.startsNamed, Event.started?, List.filterMap_cons]

/-- Claim C3. The root span of every worker is named `Root` and child span `j` of
worker `i` is named `Test_`, the decimal digits of `i`, `_`, the decimal digits
of `j`: at every moment the names of the spans started for worker `i` are, in
order, `Root, Test_i_0, ..., Test_i_(c-1)` for some `c ≤ S`, and `c = S` once
`main` is over.  In particular when the run with `parallelCount = 2`,
`spanCount = 3`, `spanDuration = 0` is over, the names of all spans started are,
up to order, two `Root` and `Test_0_0, Test_0_1, Test_0_2, Test_1_0, Test_1_1,
Test_1_2`, and the spans of worker `0` are `Root, Test_0_0, Test_0_1, Test_0_2`,
each later one started under the context of the one before. -/
theorem span_names (P S : Nat) (D : Int) (env : Env) (hb : Booted env)
    (sched : List Choice) :
    (∀ i j, childName i j =
      "Test_" ++ String.mk (Nat.toDigits 10 i) ++ "_" ++ String.mk (Nat.toDigits 10 j)) ∧
    (∀ i, startsOf i (main ⟨S, P, D⟩ env sched).events = [] ∨
      ∃ c, c ≤ S ∧ (startsOf i (main ⟨S, P, D⟩ env sched).events).map Span.name =
        "Root" :: (List.range c).map (childName i)) ∧
    ((main ⟨S, P, D⟩ env sched).main.terminal = true → ∀ i, i < P →
      (startsOf i (main ⟨S, P, D⟩ env sched).events).map Span.name =
        "Root" :: (List.range S).map (childName i)) ∧
    ((main ⟨3, 2, 0⟩ env sched).main.terminal = true →
      List.Perm (((main ⟨3, 2, 0⟩ env sched).events.filterMap Event.started?).map Span.name)
        ["Root", "Root", "Test_0_0", "Test_0_1", "Test_0_2", "Test_1_0", "Test_1_1",
          "Test_1_2"] ∧
      (startsOf 0 (main ⟨3, 2, 0⟩ env sched).events).map Span.name =
        ["Root", "Test_0_0", "Test_0_1", "Test_0_2"] ∧
      ∀ j s s', (startsOf 0 (main ⟨3, 2, 0⟩ env sched).events)[j]? = some s →
        (startsOf 0 (main ⟨3, 2, 0⟩ env sched).events)[j + 1]? = some s' →
        s'.parent = s.ctx) := by
  refine ⟨fun i j => rfl, ?_, ?_, ?_⟩
  · intro i
    simpa using starts_names ⟨S, P, D⟩ env hb sched i
  · intro ht i hi
    simpa using starts_names_final ⟨S, P, D⟩ env hb sched ht i (by simpa using hi)
  · intro ht
    have n0 := starts_names_final ⟨3, 2, 0⟩ env hb sched ht 0 (by decide)
    have n1 := starts_names_final ⟨3, 2, 0⟩ env hb sched ht 1 (by decide)
    have e0 : (startsOf 0 (main ⟨3, 2, 0⟩ env sched).events).map Span.name =
        ["Root", "Test_0_0", "Test_0_1", "Test_0_2"] := by
      rw [n0]; decide
    have e1 : (startsOf 1 (main ⟨3, 2, 0⟩ env sched).events).map Span.name =
        ["Root", "Test_1_0", "Test_1_1", "Test_1_2"] := by
      rw [n1]; decide
    refine ⟨?_, e0, ?_⟩
    · rw [List.perm_iff_count]
      intro a
      rw [← countP_startsNamed,
        count_split ⟨3, 2, 0⟩ env hb sched _
          (by intro e; cases e <;> simp [Event.startsNamed, Event.isFlush])]
      have h2 : (⟨3, 2, 0⟩ : Flags).parallelCount.toNat = 2 := by decide
      rw [h2, Finset.sum_range_succ, Finset.sum_range_succ, Finset.sum_range_zero,
        countP_startsNamed, countP_startsNamed]
      simp only [startsOf] at e0 e1
      rw [e0, e1]
      simp only [List.count_cons, List.count_nil]
      omega
    · intro j s s' h h'
      rcases starts_form ⟨3, 2, 0⟩ env hb sched 0 with e | ⟨r, ext, -, -, -, e⟩
      · rw [e] at h; simp at h
      · rw [e] at h h'
        exact chain_link 0 r ext j s s' h h'

set_option maxRecDepth 1000000 in
/-- Instance of `span_names` on the scenario: after `scenarioSchedule` the spans of worker `0` are named
`Root, Test_0_0, Test_0_1, Test_0_2`. -/
theorem span_names_witness :
    (startsOf 0 (main ⟨3, 2, 0⟩ sampleEnv scenarioSchedule).events).map Span.name =
      ["Root", "Test_0_0", "Test_0_1", "Test_0_2"] :=
  ((span_names 2 3 0 sampleEnv (by decide) scenarioSchedule).2.2.2 (by decide)).2.1

/-! ## The order of the events of one iteration -/

/-- The events of a trace in normal form agree with the root start followed by
the full passes begun, as far as the trace has got. -/
theorem form_index (flags : Flags) (k : Nat) (tr : List Event) (h : Hist) (n : Nat)
    (fin : Bool) (hf : Form flags k tr h n fin) (a : Nat)
    (ha : a < 1 + 4 * h.cs.length + (if 2 ≤ n then n else 0)) :
    tr[a]? = (Event.spanStart k h.root :: chainEvents flags k 0 h.root.ctx (h.begun n))[a]? := by
  rw [hf.eq]
  by_cases hn : 2 ≤ n
  · have hfin : fin = false := by
      cases fin with
      | false => rfl
      | true => have := (hf.fin_n rfl).1; omega
    subst hfin
    simp only [hn, if_true] at ha
    simp only [Hist.begun, hn, if_true, chainEvents_snoc, Hist.base, Bool.false_eq_true,
      if_false, List.append_nil, List.cons_append, Nat.zero_add]
    cases a with
    | zero => simp
    | succ a =>
      simp only [List.getElem?_cons_succ]
      by_cases hlt : a < 4 * h.cs.length
      · rw [List.getElem?_append_left (by rw [chainEvents_length]; exact hlt),
          List.getElem?_append_left (by rw [chainEvents_length]; exact hlt)]
      · rw [List.getElem?_append_right (by rw [chainEvents_length]; omega),
          List.getElem?_append_right (by rw [chainEvents_length]; omega),
          List.getElem?_take_of_lt (by rw [chainEvents_length]; omega)]
        rfl
  · simp only [hn, if_false, Nat.add_zero] at ha
    simp only [Hist.begun, hn, if_false, Hist.base, List.append_assoc]
    rw [List.getElem?_append_left
      (by simp only [List.length_cons, chainEvents_length]; omega)]

theorem begun_length_le (h : Hist) (n : Nat) : (h.begun n).length ≤ h.cs.length + 1 := by
  simp only [Hist.begun]
  split <;> simp

theorem begun_getElem?_last (h : Hist) (n : Nat) (c : ChildRec)
    (hc : (h.begun n)[h.cs.length]? = some c) : 2 ≤ n := by
  by_contra hn
  simp [Hist.begun, hn] at hc

/-- Where the events of pass `j` are in a trace in normal form. -/
theorem form_child (flags : Flags) (k : Nat) (tr : List Event) (h : Hist) (n : Nat)
    (fin : Bool) (hf : Form flags k tr h n fin) (j : Nat) (s : Span)
    (hs : (tr.filterMap Event.started?)[j + 1]? = some s) :
    (∃ t, tr[4 * j + 1]? = some (.logInfo k (logMsg k j) t)) ∧
      tr[4 * j + 2]? = some (.spanStart k s) ∧
      (j < h.cs.length →
        ∃ t₁ t₂, tr[4 * j + 3]? = some (.sleep k flags.spanDuration t₁) ∧
          tr[4 * j + 4]? = some (.spanEnd k s t₂)) := by
  rw [form_starts flags k tr h n fin hf] at hs
  simp only [List.getElem?_cons_succ, chainSpans_getElem?, Option.map_eq_some'] at hs
  obtain ⟨c, hc, rfl⟩ := hs
  have hj : j < (h.begun n).length := (List.getElem?_eq_some_iff.mp hc).1
  have hle := begun_length_le h n
  have hbound : ∀ r, r < 4 → (r < 2 ∨ j < h.cs.length) →
      4 * j + r + 1 < 1 + 4 * h.cs.length + (if 2 ≤ n then n else 0) := by
    intro r hr hcase
    by_cases hjl : j < h.cs.length
    · omega
    · have hje : j = h.cs.length := by omega
      have h2 := begun_getElem?_last h n c (hje ▸ hc)
      simp only [h2, if_true]
      rcases hcase with h' | h'
      · omega
      · omega
  have key : ∀ r, r < 4 → (r < 2 ∨ j < h.cs.length) →
      tr[4 * j + r + 1]? =
        (childEvents flags k (0 + j) (chainCtx h.root.ctx ((h.begun n).take j)) c)[r]? := by
    intro r hr hcase
    rw [form_index flags k tr h n fin hf _ (hbound r hr hcase), List.getElem?_cons_succ,
      chainEvents_getElem? flags k (h.begun n) 0 h.root.ctx j r c hc hr]
  refine ⟨⟨c.tLog, ?_⟩, ?_, ?_⟩
  · have := key 0 (by omega) (Or.inl (by omega))
    simpa [childEvents] using this
  · have := key 1 (by omega) (Or.inl (by omega))
    simpa [childEvents] using this
  · intro hjl
    refine ⟨c.tSleep, c.tEnd, ?_, ?_⟩
    · have := key 2 (by omega) (Or.inr hjl)
      simpa [childEvents] using this
    · have := key 3 (by omega) (Or.inr hjl)
      simpa [childEvents] using this

theorem form_length (flags : Flags) (k : Nat) (tr : List Event) (h : Hist)
    (hf : Form flags k tr h 0 true) : tr.length = 4 * flags.spanCount.toNat + 2 := by
  rw [hf.eq]
  have := (hf.fin_n rfl).2
  simp only [Hist.base, List.take_zero, List.append_nil, if_true, List.length_append,
    List.length_cons, chainEvents_length, List.length_nil]
  omega

/-- Claim C4. Within the event sequence of a single worker `i`, at every moment of
every run: the span of pass `j` is started at position `4 j + 2`, right after
the log line of the pass; once the span of pass `j + 1` has been started, the
sleep of pass `j` is at position `4 j + 3` and the end of the span of pass `j` at
position `4 j + 4`, before the start of the span of pass `j + 1` at position
`4 j + 6`; so the child spans started exceed the child spans ended by at most
one.  When `main` is over the sequence of worker `i < P` has `4 S + 2` events and
every pass is complete: start, sleep, end. -/
theorem sequential_children (P S : Nat) (D : Int) (env : Env) (hb : Booted env)
    (sched : List Choice) (i : Nat) :
    (∀ j s, (startsOf i (main ⟨S, P, D⟩ env sched).events)[j + 1]? = some s →
      (∃ t, (traceOf i (main ⟨S, P, D⟩ env sched).events)[4 * j + 1]? =
        some (.logInfo i (logMsg i j) t)) ∧
      (traceOf i (main ⟨S, P, D⟩ env sched).events)[4 * j + 2]? = some (.spanStart i s)) ∧
    (∀ j s s', (startsOf i (main ⟨S, P, D⟩ env sched).events)[j + 1]? = some s →
      (startsOf i (main ⟨S, P, D⟩ env sched).events)[j + 2]? = some s' →
      ∃ t₁ t₂,
        (traceOf i (main ⟨S, P, D⟩ env sched).events)[4 * j + 3]? = some (.sleep i D t₁) ∧
        (traceOf i (main ⟨S, P, D⟩ env sched).events)[4 * j + 4]? = some (.spanEnd i s t₂) ∧
        (traceOf i (main ⟨S, P, D⟩ env sched).events)[4 * j + 6]? = some (.spanStart i s')) ∧
    ((traceOf i (main ⟨S, P, D⟩ env sched).events).countP Event.isChildStart ≤
      (traceOf i (main ⟨S, P, D⟩ env sched).events).countP Event.isChildEnd + 1) ∧
    ((main ⟨S, P, D⟩ env sched).main.terminal = true → i < P →
      (traceOf i (main ⟨S, P, D⟩ env sched).events).length = 4 * S + 2 ∧
      ∀ j s, (startsOf i (main ⟨S, P, D⟩ env sched).events)[j + 1]? = some s →
        ∃ t₁ t₂,
          (traceOf i (main ⟨S, P, D⟩ env sched).events)[4 * j + 3]? = some (.sleep i D t₁) ∧
          (traceOf i (main ⟨S, P, D⟩ env sched).events)[4 * j + 4]? =
            some (.spanEnd i s t₂)) := by
  refine ⟨?_, ?_, (trace_counts ⟨S, P, D⟩ env hb sched i).2.2, ?_⟩
  · intro j s hs
    rcases trace_form ⟨S, P, D⟩ env hb sched i with e | ⟨h, n, fin, hf⟩
    · simp [startsOf, e] at hs
    · have := form_child _ i _ h n fin hf j s hs
      exact ⟨this.1, this.2.1⟩
  · intro j s s' hs hs'
    rcases trace_form ⟨S, P, D⟩ env hb sched i with e | ⟨h, n, fin, hf⟩
    · simp [startsOf, e] at hs
    · have h1 := form_child _ i _ h n fin hf j s hs
      have h2 := form_child _ i _ h n fin hf (j + 1) s' hs'
      have hlen : j + 2 < (startsOf i (main ⟨S, P, D⟩ env sched).events).length :=
        (List.getElem?_eq_some_iff.mp hs').1
      simp only [startsOf, form_starts _ i _ h n fin hf, List.length_cons,
        chainSpans_length] at hlen
      have := begun_length_le h n
      obtain ⟨t₁, t₂, e1, e2⟩ := h1.2.2 (by omega)
      exact ⟨t₁, t₂, e1, e2, h2.2.1⟩
  · intro ht hi
    obtain ⟨h, hf⟩ := trace_form_final ⟨S, P, D⟩ env hb sched ht i (by simpa using hi)
    refine ⟨by simpa using form_length _ i _ h hf, ?_⟩
    intro j s hs
    have h1 := form_child _ i _ h 0 true hf j s hs
    have hlen : j + 1 < (startsOf i (main ⟨S, P, D⟩ env sched).events).length :=
      (List.getElem?_eq_some_iff.mp hs).1
    simp only [startsOf, form_starts _ i _ h 0 true hf, List.length_cons,
      chainSpans_length, Hist.begun] at hlen
    exact h1.2.2 (by simpa using hlen)

set_option maxRecDepth 100000 in
/-- Instance of `sequential_children` at `parallelCount = 1`, `spanCount = 2` after `sampleSchedule`:
the event sequence of worker `0` has ten events. -/
theorem sequential_children_witness :
    (traceOf 0 (main ⟨2, 1, 0⟩ sampleEnv sampleSchedule).events).length = 4 * 2 + 2 :=
  ((sequential_children 1 2 0 sampleEnv (by decide) sampleSchedule 0).2.2.2
    (by decide) (by decide)).1

/-! ## The end of the root span -/

/-- What a trace in normal form looks like once it holds the end of a root
span. -/
theorem form_root_end (flags : Flags) (k : Nat) (tr : List Event) (h : Hist) (n : Nat)
    (fin : Bool) (hf : Form flags k tr h n fin) (r : Span) (t : Nat)
    (hmem : (r, t) ∈ tr.filterMap Event.ended?) (hr : r.isRoot = true) :
    fin = true ∧ n = 0 ∧ r = h.root ∧ t = h.tEnd := by
  rw [form_ends flags k tr h n fin hf, List.mem_append] at hmem
  rcases hmem with hmem | hmem
  · exfalso
    have : r ∈ (chainEnds k 0 h.root.ctx h.cs).map Prod.fst :=
      List.mem_map.mpr ⟨(r, t), hmem, rfl⟩
    rw [chainEnds_fst] at this
    have := chainSpans_parent k h.cs 0 h.root.ctx (by simp [Span.ctx]) r this
    simp [Span.isRoot, this] at hr
  · cases fin with
    | false => simp at hmem
    | true =>
      simp only [if_true, List.mem_singleton, Prod.mk.injEq] at hmem
      exact ⟨rfl, (hf.fin_n rfl).1, hmem.1, hmem.2⟩

/-- Claim C5. For every worker `i` and every `S`, at every moment of every run: the
root span is ended at most once; when its end is among the events of worker `i`,
it is their last event, it is there exactly once, all `S` child spans have been
ended before it, the spans ended are the child spans in the order they were
started followed by the root, and none of them ended later than the root (the
clock never runs backwards).  When `main` is over the root of every worker
`i < P` has been ended. -/
theorem root_ends_last (P S : Nat) (D : Int) (env : Env) (hb : Booted env)
    (sched : List Choice) (i : Nat) :
    ((traceOf i (main ⟨S, P, D⟩ env sched).events).countP Event.isRootEnd ≤ 1) ∧
    (∀ r t, (r, t) ∈ endsOf i (main ⟨S, P, D⟩ env sched).events → r.isRoot = true →
      (traceOf i (main ⟨S, P, D⟩ env sched).events).getLast? = some (.spanEnd i r t) ∧
      (traceOf i (main ⟨S, P, D⟩ env sched).events).countP Event.isRootEnd = 1 ∧
      (traceOf i (main ⟨S, P, D⟩ env sched).events).countP Event.isChildEnd = S ∧
      (startsOf i (main ⟨S, P, D⟩ env sched).events)[0]? = some r ∧
      (endsOf i (main ⟨S, P, D⟩ env sched).events).map Prod.fst =
        (startsOf i (main ⟨S, P, D⟩ env sched).events).tail ++ [r] ∧
      ∀ p ∈ endsOf i (main ⟨S, P, D⟩ env sched).events, p.2 ≤ t) ∧
    ((main ⟨S, P, D⟩ env sched).main.terminal = true → i < P →
      ∃ r t, (r, t) ∈ endsOf i (main ⟨S, P, D⟩ env sched).events ∧ r.isRoot = true) := by
  refine ⟨?_, ?_, ?_⟩
  · rcases trace_form ⟨S, P, D⟩ env hb sched i with e | ⟨h, n, fin, hf⟩
    · simp [e]
    · rw [(form_counts _ i _ h n fin hf).2.2.1]
      split <;> omega
  · intro r t hmem hr
    rcases trace_form ⟨S, P, D⟩ env hb sched i with e | ⟨h, n, fin, hf⟩
    · simp [endsOf, e] at hmem
    · obtain ⟨hfin, hn, rfl, rfl⟩ := form_root_end _ i _ h n fin hf r t hmem hr
      subst hfin hn
      obtain ⟨-, -, c3, c4⟩ := form_counts _ i _ h 0 true hf
      have hlen := (hf.fin_n rfl).2
      have hs := form_starts _ i _ h 0 true hf
      have he := form_ends _ i _ h 0 true hf
      simp only [Hist.begun, if_true] at hs he
      refine ⟨?_, by simpa using c3, by rw [c4]; simpa using hlen, by simp [startsOf, hs], ?_, ?_⟩
      · rw [hf.eq]; simp
      · simp only [endsOf, startsOf, hs, he, List.map_append, chainEnds_fst]
        simp
      · intro p hp
        simp only [endsOf, he, List.mem_append, List.mem_singleton] at hp
        rcases hp with hp | hp
        · have : p.2 ∈ (chainEnds i 0 h.root.ctx h.cs).map Prod.snd :=
            List.mem_map.mpr ⟨p, hp, rfl⟩
          rw [chainEnds_snd] at this
          obtain ⟨c, hc, hce⟩ := List.mem_map.mp this
          rw [← hce]
          exact hf.ends_le rfl c hc
        · rw [hp]
  · intro ht hi
    obtain ⟨h, hf⟩ := trace_form_final ⟨S, P, D⟩ env hb sched ht i (by simpa using hi)
    refine ⟨h.root, h.tEnd, ?_, by simp [Span.isRoot, Hist.root]⟩
    simp [endsOf, form_ends _ i _ h 0 true hf]

set_option maxRecDepth 100000 in
/-- Instance of `root_ends_last` at `parallelCount = 1`, `spanCount = 2` after `sampleSchedule`: the root
span of worker `0` has been ended. -/
theorem root_ends_last_witness :
    ∃ r t, (r, t) ∈ endsOf 0 (main ⟨2, 1, 0⟩ sampleEnv sampleSchedule).events ∧
      r.isRoot = true :=
  (root_ends_last 1 2 0 sampleEnv (by decide) sampleSchedule 0).2.2 (by decide) (by decide)

/-! ## The time a chain takes -/

theorem chainEvents_countP_sleep (flags : Flags) (k : Nat) (cs : List ChildRec) :
    ∀ (j : Nat) (p : Ctx),
      (chainEvents flags k j p cs).countP (Event.isSleep flags.spanDuration) = cs.length := by
  induction cs with
  | nil => intro j p; rfl
  | cons c cs ih =>
    intro j p
    simp [chainEvents, List.countP_append, ih, childEvents, List.countP_cons, Event.isSleep]

theorem mainStep_now (flags : Flags) (env : Env) (st : State) :
    (mainStep flags env st).now = st.now := by
  unfold mainStep
  repeat' split
  all_goals rfl

theorem workerStep_now (flags : Flags) (k : Nat) (st : State) :
    (workerStep flags k st).now = st.now := by
  unfold workerStep
  repeat' split
  all_goals rfl

theorem step_now_le (flags : Flags) (env : Env) (st : State) (c : Choice) :
    st.now ≤ (step flags env st c).now := by
  by_cases ht : st.main.terminal = true
  · simp [step, ht]
  · cases c with
    | main => simp [step, ht, mainStep_now]
    | worker k => simp [step, ht, workerStep_now]
    | tick d => simp [step, ht]

theorem runFrom_now_le (flags : Flags) (env : Env) (cs : List Choice) :
    ∀ st : State, st.now ≤ (runFrom flags env st cs).now := by
  induction cs with
  | nil => intro st; exact le_refl _
  | cons c cs ih =>
    intro st
    exact le_trans (step_now_le flags env st c) (ih _)

/-- Claim C9. For every worker `i`, every `S ≥ 0` and every `spanDuration = D ≥ 0`:
the clock of a run never goes back; whenever the end of the root span of worker
`i` is among the events, the worker has called `time.Sleep` with duration `D`
exactly `S` times, and the time from the start of its first child span to the end
of its root span is at least `S * D`.  When `main` is over the root of every
worker `i < P` has been ended, and its first child span exists when `1 ≤ S`. -/
theorem chain_duration (P S D : Nat) (env : Env) (hb : Booted env)
    (sched : List Choice) (i : Nat) :
    (∀ cs, (main ⟨S, P, D⟩ env sched).now ≤ (main ⟨S, P, D⟩ env (sched ++ cs)).now) ∧
    (∀ r t, (r, t) ∈ endsOf i (main ⟨S, P, D⟩ env sched).events → r.isRoot = true →
      (traceOf i (main ⟨S, P, D⟩ env sched).events).countP (Event.isSleep D) = S ∧
      ∀ c₀, (startsOf i (main ⟨S, P, D⟩ env sched).events)[1]? = some c₀ →
        c₀.startTime + S * D ≤ t) ∧
    ((main ⟨S, P, D⟩ env sched).main.terminal = true → i < P →
      (∃ r t, (r, t) ∈ endsOf i (main ⟨S, P, D⟩ env sched).events ∧ r.isRoot = true) ∧
      (1 ≤ S → ∃ c₀, (startsOf i (main ⟨S, P, D⟩ env sched).events)[1]? = some c₀)) := by
  refine ⟨?_, ?_, ?_⟩
  · intro cs
    simp only [main, runFrom_append]
    exact runFrom_now_le _ env cs _
  · intro r t hmem hr
    rcases trace_form ⟨S, P, D⟩ env hb sched i with e | ⟨h, n, fin, hf⟩
    · simp [endsOf, e] at hmem
    · obtain ⟨hfin, hn, rfl, rfl⟩ := form_root_end _ i _ h n fin hf r t hmem hr
      subst hfin hn
      have hlen : h.cs.length = S := by simpa using (hf.fin_n rfl).2
      have hs := form_starts _ i _ h 0 true hf
      simp only [Hist.begun] at hs
      constructor
      · rw [hf.eq]
        simp only [Hist.base, List.take_zero, List.append_nil, if_true, List.countP_append,
          List.countP_cons, chainEvents_countP_sleep ⟨S, P, D⟩ i h.cs 0 h.root.ctx, hlen]
        simp [Event.isSleep]
      · intro c₀ hc
        simp only [startsOf, hs] at hc
        have ht := hf.timing rfl
        cases hcs : h.cs with
        | nil => simp [hcs, chainSpans] at hc
        | cons c cs' =>
          rw [hcs] at hc
          simp only [Nat.reduceLeDiff, if_false, chainSpans, List.getElem?_cons_succ,
            List.getElem?_cons_zero, Option.some.injEq] at hc
          have := ht (by simp [hcs])
          rw [hlen, hcs] at this
          simp only [firstStart] at this
          rw [← hc]
          simpa [childSpan] using this
  · intro ht hi
    obtain ⟨h, hf⟩ := trace_form_final ⟨S, P, D⟩ env hb sched ht i (by simpa using hi)
    have hlen : h.cs.length = S := by simpa using (hf.fin_n rfl).2
    have hs := form_starts _ i _ h 0 true hf
    simp only [Hist.begun] at hs
    refine ⟨⟨h.root, h.tEnd, ?_, by simp [Span.isRoot, Hist.root]⟩, ?_⟩
    · simp [endsOf, form_ends _ i _ h 0 true hf]
    · intro hS
      have : 1 < (startsOf i (main ⟨S, P, D⟩ env sched).events).length := by
        simp only [startsOf, hs, List.length_cons, chainSpans_length]
        simp
        omega
      exact ⟨_, List.getElem?_eq_getElem this⟩

set_option maxRecDepth 100000 in
/-- Instance of `chain_duration` at `parallelCount = 1`, `spanCount = 2`, `spanDuration = 5` after
`timedSchedule`: the root span of worker `0` has been ended and its first child span
exists. -/
theorem chain_duration_witness :
    (∃ r t, (r, t) ∈ endsOf 0 (main ⟨2, 1, 5⟩ sampleEnv timedSchedule).events ∧
      r.isRoot = true) ∧
    (1 ≤ 2 → ∃ c₀, (startsOf 0 (main ⟨2, 1, 5⟩ sampleEnv timedSchedule).events)[1]? = some c₀) :=
  (chain_duration 1 2 5 sampleEnv (by decide) timedSchedule 0).2.2 (by decide) (by decide)

/-! ## Failures and the flush -/

/-- Claim C6. If pipeline construction (`TracerProvider`) returns an error, then
under every schedule the run is over at once with that same error as its panic
value, the error being the one `otlptracehttp.New` returned for the options built
from the configuration: no event was reported (no span started or ended, no flush),
no loop iteration was begun and no goroutine launched. -/
theorem construction_failure (flags : Flags) (env : Env) (config : TracerConfig) (err : Err)
    (hc : loadTracerConfig env = .ok config) (he : TracerProvider env config = .error err)
    (sched : List Choice) :
    (main flags env sched).main = .panicked err ∧
      (main flags env sched).events = [] ∧
      (main flags env sched).workers = [] ∧
      (main flags env sched).wg = 0 ∧
      env.newExporter (exporterOptions config) = some err := by
  have hboot : boot env = State.fresh (.panicked err) [] := by
    simp [boot, hc, he]
  have hrun : main flags env sched = State.fresh (.panicked err) [] := by
    unfold main
    rw [hboot]
    exact runFrom_of_terminal flags env _ sched rfl
  refine ⟨by rw [hrun]; rfl, by rw [hrun]; rfl, by rw [hrun]; rfl, by rw [hrun]; rfl, ?_⟩
  unfold TracerProvider at he
  simp only at he
  split at he
  · rename_i e heq
    injection he with he
    rw [heq, he]
  · simp at he

/-- Instance of `construction_failure` on `brokenEnv`: the run panics with the error of the exporter and
reports nothing, whatever is scheduled. -/
theorem construction_failure_witness :
    (main ⟨100, 100, 10⟩ brokenEnv [.main, .worker 0, .tick 1]).main = .panicked "no exporter" ∧
      (main ⟨100, 100, 10⟩ brokenEnv [.main, .worker 0, .tick 1]).events = [] :=
  ⟨(construction_failure ⟨100, 100, 10⟩ brokenEnv { Endpoint := "localhost:4318", TLS := true }
      "no exporter" rfl rfl [.main, .worker 0, .tick 1]).1,
    (construction_failure ⟨100, 100, 10⟩ brokenEnv { Endpoint := "localhost:4318", TLS := true }
      "no exporter" rfl rfl [.main, .worker 0, .tick 1]).2.1⟩

/-- Claim C10. For every `TracerConfig`, the option list `TracerProvider` builds
begins with the endpoint option carrying `config.Endpoint` unchanged and contains
the insecure-transport option exactly when `config.TLS` is false: it is the
endpoint option alone when `TLS` is true and the endpoint option followed by the
insecure option when `TLS` is false; and it is this list that `TracerProvider`
hands to `otlptracehttp.New`. -/
theorem exporter_options (config : TracerConfig) :
    (exporterOptions config).head? = some (.withEndpoint config.Endpoint) ∧
      (ExporterOption.withInsecure ∈ exporterOptions config ↔ config.TLS = false) ∧
      (config.TLS = true → exporterOptions config = [.withEndpoint config.Endpoint]) ∧
      (config.TLS = false →
        exporterOptions config = [.withEndpoint config.Endpoint, .withInsecure]) ∧
      (∀ env : Env, TracerProvider env config =
        match env.newExporter (exporterOptions config) with
        | some err => .error err
        | none => .ok (exporterOptions config)) := by
  refine ⟨?_, ?_, ?_, ?_, fun env => rfl⟩
  · cases h : config.TLS <;> simp [exporterOptions, h]
  · cases h : config.TLS <;> simp [exporterOptions, h]
  · intro h; simp [exporterOptions, h]
  · intro h; simp [exporterOptions, h]

/-- Instance of `exporter_options` on a configuration with and one without TLS. -/
theorem exporter_options_witness :
    exporterOptions { Endpoint := "collector:4318", TLS := true } =
        [.withEndpoint "collector:4318"] ∧
      exporterOptions { Endpoint := "collector:4318", TLS := false } =
        [.withEndpoint "collector:4318", .withInsecure] :=
  ⟨(exporter_options { Endpoint := "collector:4318", TLS := true }).2.2.1 rfl,
    (exporter_options { Endpoint := "collector:4318", TLS := false }).2.2.2.1 rfl⟩

theorem exited_main (flags : Flags) (env : Env) (hb : Booted env) (sched : List Choice) :
    (main flags env sched).main = .exited → env.forceFlush = none :=
  (shape_main flags env hb sched).exitedOk

theorem withMain_self (st : State) : st.withMain st.main = st := rfl

theorem workerStep_withMain (flags : Flags) (k : Nat) (st : State) (pc : MainPc) :
    workerStep flags k (st.withMain pc) = (workerStep flags k st).withMain pc := by
  unfold workerStep State.withMain
  simp only
  repeat' split
  all_goals rfl

theorem step_flushing (flags : Flags) (env : Env) (st : State) (c : Choice) :
    step flags env.flushing st c = step flags env st c ∨
      PastFlush (step flags env.flushing st c) (step flags env st c) := by
  by_cases ht : st.main.terminal = true
  · left; simp [step, ht]
  · cases c with
    | main =>
      simp only [step, ht, Bool.false_eq_true, if_false]
      unfold mainStep
      split
      · left; rfl
      · left; rfl
      · left; rfl
      · left; rfl
      · right
        exact ⟨rfl, Or.inl ⟨_, _, rfl, rfl⟩⟩
      · left; rfl
      · left; rfl
      · left; rfl
      · left; rfl
    | worker k => left; simp [step, ht]
    | tick d => left; simp [step, ht]

theorem step_pastFlush (flags : Flags) (env env' : Env) (a b : State) (c : Choice)
    (h : PastFlush a b) : PastFlush (step flags env' a c) (step flags env b c) := by
  obtain ⟨he, hm⟩ := h
  rcases hm with ⟨r, r', ha, hb⟩ | ⟨ha, hb⟩
  · have hta : a.main.terminal = false := by simp [ha, MainPc.terminal]
    have htb : b.main.terminal = false := by simp [hb, MainPc.terminal]
    obtain ⟨e, rfl, rfl⟩ : ∃ e : State,
        a = e.withMain (.flushed r) ∧ b = e.withMain (.flushed r') :=
      ⟨a.withMain .exited, by rw [← ha]; rfl, by rw [he, ← hb]; rfl⟩
    cases c with
    | main =>
      simp only [step, hta, htb, Bool.false_eq_true, if_false]
      cases r <;> cases r' <;> exact ⟨rfl, Or.inr ⟨rfl, rfl⟩⟩
    | worker k =>
      simp only [step, hta, htb, Bool.false_eq_true, if_false]
      rw [workerStep_withMain, workerStep_withMain]
      exact ⟨rfl, Or.inl ⟨r, r', rfl, rfl⟩⟩
    | tick d =>
      simp only [step, hta, htb, Bool.false_eq_true, if_false]
      exact ⟨rfl, Or.inl ⟨r, r', rfl, rfl⟩⟩
  · rw [step_of_terminal _ _ a c ha, step_of_terminal _ _ b c hb]
    exact ⟨he, Or.inr ⟨ha, hb⟩⟩

theorem runFrom_flushing (flags : Flags) (env : Env) (sched : List Choice) :
    ∀ a b : State, (a = b ∨ PastFlush a b) →
      (runFrom flags env.flushing a sched).events = (runFrom flags env b sched).events := by
  induction sched with
  | nil =>
    intro a b h
    rcases h with rfl | ⟨h, -⟩
    · rfl
    · have := congrArg State.events h
      exact this
  | cons c cs ih =>
    intro a b h
    show (runFrom flags env.flushing (step flags env.flushing a c) cs).events =
      (runFrom flags env (step flags env b c) cs).events
    apply ih
    rcases h with rfl | h
    · exact step_flushing flags env a c
    · exact Or.inr (step_pastFlush flags env env.flushing a b c h)

theorem main_flushing (flags : Flags) (env : Env) (sched : List Choice) :
    (main flags env.flushing sched).events = (main flags env sched).events :=
  runFrom_flushing flags env sched _ _ (Or.inl rfl)

/-- Claim C7. If pipeline construction succeeds and the flush returns an error,
then under every schedule: once `main` is over it has panicked with that flush
error; by then all `P` root spans and all `P * S` child spans have been started
and all of them ended, the flush being the last event; the events are the same
as in the run under the same schedule whose flush succeeds; and every run can be
continued until `main` has so panicked. -/
theorem flush_failure (P S : Nat) (D : Int) (env : Env) (err : Err) (hb : Booted env)
    (hf : env.forceFlush = some err) (sched : List Choice) :
    ((main ⟨S, P, D⟩ env sched).main.terminal = true →
      (main ⟨S, P, D⟩ env sched).main = .panicked err ∧
      (main ⟨S, P, D⟩ env sched).events.countP Event.isRootStart = P ∧
      (main ⟨S, P, D⟩ env sched).events.countP Event.isChildStart = P * S ∧
      (main ⟨S, P, D⟩ env sched).events.countP Event.isRootEnd = P ∧
      (main ⟨S, P, D⟩ env sched).events.countP Event.isChildEnd = P * S ∧
      ∃ pre t, (main ⟨S, P, D⟩ env sched).events = pre ++ [.forceFlush t] ∧
        ∀ e ∈ pre, e.isFlush = false) ∧
    ((main ⟨S, P, D⟩ env sched).events = (main ⟨S, P, D⟩ env.flushing sched).events) ∧
    (∃ cs, (main ⟨S, P, D⟩ env (sched ++ cs)).main = .panicked err) := by
  have hpanic : ∀ s, (main ⟨S, P, D⟩ env s).main.terminal = true →
      (main ⟨S, P, D⟩ env s).main = .panicked err := by
    intro s ht
    cases hm : (main ⟨S, P, D⟩ env s).main with
    | exited =>
      have := exited_main ⟨S, P, D⟩ env hb s hm
      rw [hf] at this; simp at this
    | panicked e =>
      have := (shape_main ⟨S, P, D⟩ env hb s).flushed e hm
      rw [hf] at this
      injection this with this
      rw [this]
    | _ => simp [hm, MainPc.terminal] at ht
  refine ⟨?_, (main_flushing _ env sched).symm, ?_⟩
  · intro ht
    obtain ⟨c1, c2, c3, c4⟩ := run_counts_final ⟨S, P, D⟩ env hb sched ht
    have hfl := flushLast_main ⟨S, P, D⟩ env hb sched
    simp only [FlushLast, flushDone_of_terminal _ ht, if_true] at hfl
    exact ⟨hpanic sched ht, by simpa using c1, by simpa using c2, by simpa using c3,
      by simpa using c4, hfl⟩
  · obtain ⟨cs, hcs⟩ := main_can_finish ⟨S, P, D⟩ env hb sched
    exact ⟨cs, hpanic _ hcs⟩

set_option maxRecDepth 100000 in
/-- Instance of `flush_failure` on `lossyEnv` at `parallelCount = 1`, `spanCount = 2` after
`sampleSchedule`: `main` has panicked with the flush error after one root span and two
child spans were started. -/
theorem flush_failure_witness :
    (main ⟨2, 1, 0⟩ lossyEnv sampleSchedule).main = .panicked "flush failed" ∧
      (main ⟨2, 1, 0⟩ lossyEnv sampleSchedule).events.countP Event.isRootStart = 1 ∧
      (main ⟨2, 1, 0⟩ lossyEnv sampleSchedule).events.countP Event.isChildStart = 1 * 2 :=
  ⟨((flush_failure 1 2 0 lossyEnv "flush failed" (by decide) rfl sampleSchedule).1
      (by decide)).1,
    ((flush_failure 1 2 0 lossyEnv "flush failed" (by decide) rfl sampleSchedule).1
      (by decide)).2.1,
    ((flush_failure 1 2 0 lossyEnv "flush failed" (by decide) rfl sampleSchedule).1
      (by decide)).2.2.1⟩

theorem eq_of_append_flush (pre pre' post : List Event) (t t' : Nat)
    (h : pre' ++ [Event.forceFlush t'] = pre ++ Event.forceFlush t :: post)
    (hpre : ∀ e ∈ pre', e.isFlush = false) : post = [] := by
  by_contra hne
  obtain ⟨post', x, hx⟩ : ∃ post' x, post = post' ++ [x] := by
    rcases List.eq_nil_or_concat post with h0 | ⟨l, a, h1⟩
    · exact absurd h0 hne
    · exact ⟨l, a, by simpa using h1⟩
  rw [hx] at h
  have h' : pre' ++ [Event.forceFlush t'] = (pre ++ Event.forceFlush t :: post') ++ [x] := by
    rw [h]; simp
  have := List.append_inj' h' rfl
  have hmem : Event.forceFlush t ∈ pre' := by rw [this.1]; simp
  have := hpre _ hmem
  simp [Event.isFlush] at this

theorem wg_of_joined (flags : Flags) (env : Env) (st : State) (hs : Shape flags env st)
    (hj : st.main.joined = true) : st.wg = 0 ∧ ∀ w ∈ st.workers, w.pc = .done := by
  have hdone := hs.joined hj
  refine ⟨?_, hdone⟩
  have hsum : (st.workers.map Worker.live).sum = 0 := by
    rw [List.sum_eq_zero_iff]
    intro x hx
    obtain ⟨w, hw, rfl⟩ := List.mem_map.mp hx
    simp [Worker.live, hdone w hw]
  have hwg := hs.wg
  have hne : st.main ≠ .wgAdd := by
    intro h; simp [h, MainPc.joined] at hj
  simp only [hne, if_false] at hwg
  omega

/-- Claim C8. In every run in which pipeline construction succeeds, for every
`P ≥ 0` and `S ≥ 0` and under every schedule, that is under every interleaving
of the workers: the flush is invoked at most once, and exactly once, as the last
event, by the time `main` is over.  The flush waits for the workers: when `main`
is about to call `ForceFlush` the wait group counts zero, every goroutine has
run to its end and all `P` root spans and `P * S` child spans have been started
and ended; and wherever a flush stands among the events, all those starts and
ends stand before it and nothing follows it, so no span is started or ended
after the flush.  Every run can be continued until `main` is over, also when
`P = 0` or `S = 0`.  With `P = 0` no span is ever started or ended, and with
`S = 0` the run that is over has started `P` root spans and no child span. -/
theorem flush_once (P S : Nat) (D : Int) (env : Env) (hb : Booted env)
    (sched : List Choice) :
    ((main ⟨S, P, D⟩ env sched).events.countP Event.isFlush ≤ 1) ∧
    ((main ⟨S, P, D⟩ env sched).main.terminal = true →
      (main ⟨S, P, D⟩ env sched).events.countP Event.isFlush = 1 ∧
      ∃ pre t, (main ⟨S, P, D⟩ env sched).events = pre ++ [.forceFlush t]) ∧
    ((main ⟨S, P, D⟩ env sched).main = .forceFlush →
      (main ⟨S, P, D⟩ env sched).wg = 0 ∧
      (main ⟨S, P, D⟩ env sched).workers.length = P ∧
      (∀ w ∈ (main ⟨S, P, D⟩ env sched).workers, w.pc = .done) ∧
      (main ⟨S, P, D⟩ env sched).events.countP Event.isRootStart = P ∧
      (main ⟨S, P, D⟩ env sched).events.countP Event.isChildStart = P * S ∧
      (main ⟨S, P, D⟩ env sched).events.countP Event.isRootEnd = P ∧
      (main ⟨S, P, D⟩ env sched).events.countP Event.isChildEnd = P * S) ∧
    (∀ pre post t, (main ⟨S, P, D⟩ env sched).events = pre ++ .forceFlush t :: post →
      post = [] ∧
      pre.countP Event.isRootStart = P ∧ pre.countP Event.isChildStart = P * S ∧
      pre.countP Event.isRootEnd = P ∧ pre.countP Event.isChildEnd = P * S ∧
      (∀ e ∈ pre, e.isFlush = false) ∧
      (main ⟨S, P, D⟩ env sched).wg = 0 ∧
      (∀ w ∈ (main ⟨S, P, D⟩ env sched).workers, w.pc = .done)) ∧
    (∃ cs, (main ⟨S, P, D⟩ env (sched ++ cs)).main.terminal = true) ∧
    (P = 0 → ∀ e ∈ (main ⟨S, P, D⟩ env sched).events, e.isSpan = false) ∧
    (S = 0 → (main ⟨S, P, D⟩ env sched).main.terminal = true →
      (main ⟨S, P, D⟩ env sched).events.countP Event.isRootStart = P ∧
      (main ⟨S, P, D⟩ env sched).events.countP Event.isChildStart = 0) := by
  have hfl := flushLast_main ⟨S, P, D⟩ env hb sched
  have hs := shape_main ⟨S, P, D⟩ env hb sched
  have hcount : (main ⟨S, P, D⟩ env sched).events.countP Event.isFlush ≤ 1 := by
    unfold FlushLast at hfl
    split at hfl
    · obtain ⟨pre, t, e, hpre⟩ := hfl
      rw [e, List.countP_append, List.countP_eq_zero.mpr (by simpa using hpre)]
      simp [Event.isFlush]
    · rw [List.countP_eq_zero.mpr (by simpa using hfl)]
      omega
  refine ⟨hcount, ?_, ?_, ?_, main_can_finish _ env hb sched, ?_, ?_⟩
  · intro ht
    simp only [FlushLast, flushDone_of_terminal _ ht, if_true] at hfl
    obtain ⟨pre, t, e, hpre⟩ := hfl
    refine ⟨?_, pre, t, e⟩
    rw [e, List.countP_append, List.countP_eq_zero.mpr (by simpa using hpre)]
    simp [Event.isFlush]
  · intro hm
    have hj : (main ⟨S, P, D⟩ env sched).main.joined = true := by simp [hm, MainPc.joined]
    obtain ⟨hwg, hdone⟩ := wg_of_joined _ env _ hs hj
    obtain ⟨c1, c2, c3, c4⟩ := run_counts_joined ⟨S, P, D⟩ env hb sched hj
    have hlen : (main ⟨S, P, D⟩ env sched).workers.length = P := by
      have h1 := hs.len
      have h2 := hs.past (Or.inr hj)
      simp only [hm, reduceCtorEq, or_self, if_false] at h1
      rw [h1, h2]
      simp
    exact ⟨hwg, hlen, hdone, by simpa using c1, by simpa using c2, by simpa using c3,
      by simpa using c4⟩
  · intro pre post t e
    have hd : (main ⟨S, P, D⟩ env sched).main.flushDone = true := by
      by_contra hd
      simp only [FlushLast, hd] at hfl
      have := hfl (.forceFlush t) (by rw [e]; simp)
      simp [Event.isFlush] at this
    have hj := joined_of_flushDone _ hd
    simp only [FlushLast, hd, if_true] at hfl
    obtain ⟨pre', t', e', hpre'⟩ := hfl
    have hpost := eq_of_append_flush pre pre' post t t' (e'.symm.trans e) hpre'
    subst hpost
    obtain ⟨hwg, hdone⟩ := wg_of_joined _ env _ hs hj
    obtain ⟨c1, c2, c3, c4⟩ := run_counts_joined ⟨S, P, D⟩ env hb sched hj
    rw [e] at c1 c2 c3 c4 hcount
    simp only [List.countP_append, List.countP_cons, List.countP_nil, Event.isRootStart,
      Event.isChildStart, Event.isRootEnd, Event.isChildEnd, Event.isFlush,
      Bool.false_eq_true, if_false, if_true, Nat.add_zero, Nat.zero_add] at c1 c2 c3 c4 hcount
    refine ⟨rfl, by simpa using c1, by simpa using c2, by simpa using c3, by simpa using c4,
      ?_, hwg, hdone⟩
    have hz : pre.countP Event.isFlush = 0 := by omega
    simpa using List.countP_eq_zero.mp hz
  · intro hP e he
    cases e with
    | forceFlush t => rfl
    | logInfo t m u => rfl
    | sleep t d u => rfl
    | spanStart t s =>
      have := trace_lt ⟨S, P, D⟩ env hb sched _ he t rfl
      simp [hP] at this
    | spanEnd t s u =>
      have := trace_lt ⟨S, P, D⟩ env hb sched _ he t rfl
      simp [hP] at this
  · intro hS ht
    obtain ⟨c1, c2, -, -⟩ := run_counts_final ⟨S, P, D⟩ env hb sched ht
    exact ⟨by simpa using c1, by simpa [hS] using c2⟩

set_option maxRecDepth 100000 in
/-- Instance of `flush_once` at `parallelCount = 1`, `spanCount = 2`: after `sampleSchedule`
there is exactly one flush, and after `joinedSchedule`, when `main` is about to flush, the
wait group counts zero and both child spans have been ended. -/
theorem flush_once_witness :
    (main ⟨2, 1, 0⟩ sampleEnv sampleSchedule).events.countP Event.isFlush = 1 ∧
      (main ⟨2, 1, 0⟩ sampleEnv joinedSchedule).wg = 0 ∧
      (main ⟨2, 1, 0⟩ sampleEnv joinedSchedule).events.countP Event.isChildEnd = 1 * 2 :=
  ⟨((flush_once 1 2 0 sampleEnv (by decide) sampleSchedule).2.1 (by decide)).1,
    ((flush_once 1 2 0 sampleEnv (by decide) joinedSchedule).2.2.1 (by decide)).1,
    ((flush_once 1 2 0 sampleEnv (by decide) joinedSchedule).2.2.1 (by decide)).2.2.2.2.2.2⟩

end OtelTest
